import Mathlib

set_option maxHeartbeats 1000000
set_option maxRecDepth 8000

/-!
Verification of the ledger-rs prototype: a shallow embedding of the
commodity-tagged decimal `Amount` type, the `Journal` arena, the line
scanner/parser and the transaction balancer, together with theorems about
the frozen behavioural claims.
-/

/-- Modelled from the spec: `rust_decimal::Decimal` is external to the
repository.  The spec describes Amounts as exact ("arbitrary-precision")
decimals stored at full input precision and scale, so a Decimal is an
integer mantissa together with a base-10 scale (value = mantissa / 10^scale),
with no bound on the mantissa. -/
structure Decimal where
  mantissa : Int
  scale : Nat
  deriving DecidableEq

/-- Rational value denoted by a `Decimal`. -/
def Decimal.val (d : Decimal) : ℚ := (d.mantissa : ℚ) / (10 : ℚ) ^ d.scale

/-- `Decimal::is_zero`: the mantissa is zero (equivalently, the value is zero). -/
def Decimal.is_zero (d : Decimal) : Bool := d.mantissa == 0

/-- Modelled from the spec: exact decimal addition (rust_decimal `+`):
rescale both operands to the larger scale and add mantissas. -/
def Decimal.add (a b : Decimal) : Decimal :=
  ⟨a.mantissa * 10 ^ (max a.scale b.scale - a.scale)
    + b.mantissa * 10 ^ (max a.scale b.scale - b.scale),
   max a.scale b.scale⟩

/-- Modelled from the spec: exact decimal multiplication (rust_decimal `*`):
mantissas multiply, scales add. -/
def Decimal.mul (a b : Decimal) : Decimal :=
  ⟨a.mantissa * b.mantissa, a.scale + b.scale⟩

/-- Scanning loop of the decimal literal parser: consumes digits and at most
one `.`, accumulating the mantissa, the number of fractional digits seen so
far (`fr = some k` once the dot has been passed) and whether any digit has
been seen. -/
def decScan : List Char → Nat → Option Nat → Bool → Option (Nat × Nat)
  | [], m, fr, seen => if seen then some (m, fr.getD 0) else none
  | c :: rest, m, fr, seen =>
    if c = '.' then
      match fr with
      | some _ => none
      | none => decScan rest m (some 0) seen
    else if c.isDigit then
      decScan rest (m * 10 + (c.toNat - 48)) (fr.map (· + 1)) true
    else none

/-- Modelled from the spec: `Decimal::from_str_exact` (rust_decimal) as the
spec describes it — a syntactically exact decimal literal: optional sign,
digits, at most one `.`, no grouping separators; anything else fails.  The
result keeps the full input precision and scale (no rounding); the real
library additionally rejects literals beyond its 96-bit mantissa. -/
def fromChars (cs : List Char) : Option Decimal :=
  match cs with
  | [] => none
  | c :: rest =>
    if c = '-' then (decScan rest 0 none false).map (fun p => ⟨-(p.1 : Int), p.2⟩)
    else if c = '+' then (decScan rest 0 none false).map (fun p => ⟨(p.1 : Int), p.2⟩)
    else (decScan (c :: rest) 0 none false).map (fun p => ⟨(p.1 : Int), p.2⟩)

def Decimal.from_str_exact (s : String) : Option Decimal :=
  fromChars s.toList

/-- `Amount` (src/amount.rs): an exact decimal quantity tagged with an
optional commodity index. -/
structure Amount where
  quantity : Decimal
  commodity_index : Option Nat
  deriving DecidableEq

/-- `Amount::new`. -/
def Amount.new (quantity : Decimal) (commodity_index : Option Nat) : Amount :=
  ⟨quantity, commodity_index⟩

/-- `Amount::copy_from`. -/
def Amount.copy_from (other : Amount) : Amount :=
  ⟨other.quantity, other.commodity_index⟩

/-- `Amount::null`: zero quantity, no commodity. -/
def Amount.null : Amount := ⟨⟨0, 0⟩, none⟩

/-- `Amount::parse` (src/amount.rs): empty input or an unparsable literal is
absent; otherwise the parsed quantity is paired with the given commodity
index. -/
def Amount.parse (amount : String) (commodity_index : Option Nat) : Option Amount :=
  if amount.isEmpty then none
  else
    match Decimal.from_str_exact amount with
    | none => none
    | some q => some ⟨q, commodity_index⟩

/-- `Amount::add` (src/amount.rs): the commodity indices must be equal, else
the call panics (modelled as `none`); adding a zero quantity returns early,
leaving `self` untouched; otherwise the quantities are added. -/
def Amount.add (self other : Amount) : Option Amount :=
  if self.commodity_index ≠ other.commodity_index then none
  else if other.quantity.is_zero then some self
  else some ⟨self.quantity.add other.quantity, self.commodity_index⟩

/-- `Amount::inverse`: multiply the quantity by `dec!(-1)`, keep the
commodity index. -/
def Amount.inverse (self : Amount) : Amount :=
  ⟨self.quantity.mul ⟨-1, 0⟩, self.commodity_index⟩

/-- `Amount::is_null`: zero quantity and no commodity. -/
def Amount.is_null (self : Amount) : Bool :=
  if self.quantity.is_zero then self.commodity_index.isNone else false

/-- `Amount::is_zero`. -/
def Amount.is_zero (self : Amount) : Bool := self.quantity.is_zero

/-- Strip one leading sign character, if present (spec-side helper for the
decimal-literal grammar). -/
def stripSign (cs : List Char) : List Char :=
  match cs with
  | c :: rest => if c = '+' || c = '-' then rest else cs
  | [] => []

/-- Bool form of the exact-decimal-literal grammar over a character list. -/
def litChars (cs0 : List Char) : Bool :=
  let cs := stripSign cs0
  cs.any (·.isDigit) && cs.all (fun c => c.isDigit || c == '.') && cs.count '.' ≤ 1

/-- Spec-side grammar of an exact decimal literal: optional sign, at least
one digit, only digits and at most one `.` otherwise, no grouping
separators. -/
def isExactDecimalLit (s : String) : Bool :=
  litChars s.toList

/-- Numeric value of a digit string, most-significant first. -/
def digitsVal (cs : List Char) : Nat :=
  cs.foldl (fun a c => a * 10 + (c.toNat - 48)) 0

/-- Digits after the decimal point of a literal, if any. -/
def fracDigits (s : String) : List Char :=
  ((stripSign s.toList).dropWhile (· ≠ '.')).drop 1

/-- Digits before the decimal point of a literal. -/
def intDigits (s : String) : List Char :=
  (stripSign s.toList).takeWhile (· ≠ '.')

/-- Spec-side rational value of an exact decimal literal. -/
def litVal (s : String) : ℚ :=
  (if s.toList.head? = some '-' then -1 else 1) *
    (digitsVal (intDigits s ++ fracDigits s) : ℚ) / (10 : ℚ) ^ (fracDigits s).length

/-- `Commodity` (spec §3): identity is the exact symbol string. -/
structure Commodity where
  symbol : String
  deriving DecidableEq

/-- Modelled from the spec: `Commodity::parse` (commodity.rs is not in the
sources) — an empty/whitespace token is absent, otherwise the verbatim token
text becomes the symbol. -/
def Commodity.parse (token : String) : Option Commodity :=
  if token.toList.all Char.isWhitespace then none else some ⟨token⟩

/-- `Account` (spec §3): a flat name plus back-references to its posts. -/
structure Account where
  name : String
  post_indices : List Nat
  deriving DecidableEq

/-- Modelled from the spec: `Account::parse` (account.rs is not in the
sources) — names are flat strings, stored verbatim. -/
def Account.parse (token : String) : Account := ⟨token, []⟩

/-- `Post` (spec §3; post.rs is not in the sources): account and xact
handles, an optional amount (absent only for the elided posting until the
Balancer resolves it) and an optional cost. -/
structure Post where
  account_index : Nat
  xact : Nat
  amount : Option Amount
  cost : Option Amount
  deriving DecidableEq

/-- `Post::new(account_index, xact_index, amount, cost)`. -/
def Post.new (account_index xact_index : Nat) (amount cost : Option Amount) : Post :=
  ⟨account_index, xact_index, amount, cost⟩

/-- Modelled from the spec: a chrono `NaiveDate` parsed with `%Y-%m-%d`
(shape only: four digit year, two digit month, two digit day; chrono's
range validation is not relevant to any claim). -/
def parse_date (s : String) : Option (Nat × Nat × Nat) :=
  match s.toList with
  | [a, b, c, d, '-', e, f, '-', g, h] =>
    if ([a, b, c, d, e, f, g, h].all Char.isDigit) then
      some (digitsVal [a, b, c, d], digitsVal [e, f], digitsVal [g, h])
    else none
  | _ => none

/-- `Xact` (src/xact.rs): header fields plus the ordered post-index list. -/
structure Xact where
  date : Option (Nat × Nat × Nat)
  aux_date : Option (Nat × Nat × Nat)
  payee : String
  posts : List Nat
  note : Option String
  deriving DecidableEq

/-- `Xact::create` (src/xact.rs): empty tokens become `None` fields, an
empty payee becomes the "Unknown Payee" sentinel; a malformed date panics
(`expect`), modelled as `none`. -/
def Xact.create (date aux_date payee note : String) : Option Xact :=
  match (if date.isEmpty then some none else (parse_date date).map some),
        (if aux_date.isEmpty then some none else (parse_date aux_date).map some) with
  | some d, some a =>
    some { date := d, aux_date := a,
           payee := if payee.isEmpty then "Unknown Payee" else payee,
           posts := [],
           note := if note.isEmpty then none else some note }
  | _, _ => none

/-- `Journal` (spec §3; journal.rs is not in the sources): four dense
append-only arenas. -/
structure Journal where
  xacts : List Xact
  posts : List Post
  accounts : List Account
  commodities : List Commodity
  deriving DecidableEq

/-- `Journal::new`: constructed empty. -/
def Journal.new : Journal := ⟨[], [], [], []⟩

/-- `Journal::add_xact`: append to the xact arena, returning the new index. -/
def Journal.add_xact (j : Journal) (x : Xact) : Nat × Journal :=
  (j.xacts.length, { j with xacts := j.xacts ++ [x] })

/-- `Journal::add_post`: append to the post arena, returning the new index. -/
def Journal.add_post (j : Journal) (p : Post) : Nat × Journal :=
  (j.posts.length, { j with posts := j.posts ++ [p] })

/-- Index of the first element satisfying `p` (Rust `iter().position()`). -/
def idxOfP {α : Type} (p : α → Bool) : List α → Option Nat
  | [] => none
  | x :: rest => if p x then some 0 else (idxOfP p rest).map (· + 1)

/-- Modelled from the spec: `Journal::add_commodity` (journal.rs is not in
the sources) is the pool's `find_or_create(symbol)`: the existing index for
an exact-match symbol, else append and return the new index. -/
def Journal.add_commodity (j : Journal) (c : Commodity) : Nat × Journal :=
  match idxOfP (fun c2 => c2.symbol == c.symbol) j.commodities with
  | some i => (i, j)
  | none => (j.commodities.length, { j with commodities := j.commodities ++ [c] })

/-- Modelled from the spec: `Journal::add_account` — accounts are interned
by their full name string, like commodities. -/
def Journal.add_account (j : Journal) (a : Account) : Nat × Journal :=
  match idxOfP (fun a2 => a2.name == a.name) j.accounts with
  | some i => (i, j)
  | none => (j.accounts.length, { j with accounts := j.accounts ++ [a] })

/-- Trim ASCII/Unicode whitespace at both ends (Rust `str::trim`). -/
def trimChars (cs : List Char) : List Char :=
  ((cs.dropWhile Char.isWhitespace).reverse.dropWhile Char.isWhitespace).reverse

/-- First index at which `pat` occurs as a contiguous sub-sequence of `l`
(Rust `str::find` on a pattern string). -/
def subAt (pat : List Char) : List Char → Option Nat
  | [] => if pat = [] then some 0 else none
  | c :: rest =>
    if pat.isPrefixOf (c :: rest) then some 0
    else (subAt pat rest).map (· + 1)

/-- Payee and note sections of `parse_xact_header` (src/parser2.rs lines
169-198): `e` is the byte position where the date/aux-date section ended.
In the branch without a `"  ;"` separator the code slices `line[e+1..]`,
which panics when `e` is already the end of the line; that panic is
modelled as `none`. -/
def payeeNote (line date aux : List Char) (e : Nat) :
    Option (List Char × List Char × List Char × List Char) :=
  match subAt [' ', ' ', ';'] (line.drop e) with
  | some i =>
    let e2 := e + i
    let payee := trimChars ((line.drop e).take i)
    let note := if line.drop e2 = [] then [] else trimChars (line.drop (e2 + 3))
    some (date, aux, payee, note)
  | none =>
    if e + 1 > line.length then none
    else some (date, aux, trimChars (line.drop (e + 1)), [])

/-- Date, aux-date, payee and note of a header line whose first `=` or
space sits at `idx` (src/parser2.rs lines 131-166). -/
def headerWithSep (line : List Char) (idx : Nat) :
    Option (List Char × List Char × List Char × List Char) :=
  let date := line.take idx
  match line.get? idx with
  | none => payeeNote line date [] idx
  | some c =>
    if c = ' ' then payeeNote line date [] idx
    else if c = '=' then
      let b := idx + 1
      let e := match (line.drop b).findIdx? (fun c2 => c2 == ' ') with
               | some i => b + i
               | none => line.length
      payeeNote line date ((line.drop b).take (e - b)) e
    else none

/-- `parse_xact_header` (src/parser2.rs): header tokenizer returning
`(date, aux_date, payee, note)`; an empty line and the out-of-range slice
panic are modelled as `none`. -/
def parse_xact_header (line : List Char) :
    Option (List Char × List Char × List Char × List Char) :=
  if line = [] then none
  else
    match line.findIdx? (fun c => c == '=' || c == ' ') with
    | none => some (line, [], [], [])
    | some idx => headerWithSep line idx

/-- Modelled from the spec: `scanner::tokenize_xact_header` (scanner.rs is
not in the sources); the spec's `tokenize_header` grammar is the same
algorithm as `parse_xact_header`. -/
def tokenize_xact_header (line : String) : Option (String × String × String × String) :=
  (parse_xact_header line.toList).map
    (fun r => (String.mk r.1, String.mk r.2.1, String.mk r.2.2.1, String.mk r.2.2.2))

/-- Account section of a posting line: everything before the first run of
two spaces; the remainder (with further leading spaces stripped) is the
amount region. -/
def splitAccount : List Char → List Char × List Char
  | [] => ([], [])
  | ' ' :: ' ' :: rest => ([], rest.dropWhile (· == ' '))
  | c :: rest =>
    let r := splitAccount rest
    (c :: r.1, r.2)

/-- A character that can begin a signed numeral. -/
def isNumStart (c : Char) : Bool := c.isDigit || c == '-' || c == '+'

/-- A character that can appear inside a signed decimal numeral. -/
def isNumChar (c : Char) : Bool := c.isDigit || c == '.' || c == '-' || c == '+'

/-- Split an amount region into (numeral, commodity symbol): the symbol is
adjacent to the numeral as either suffix (`20 EUR`) or prefix (`A$-20`). -/
def splitNumSym (cs : List Char) : List Char × List Char :=
  match cs with
  | [] => ([], [])
  | c :: _ =>
    if isNumStart c then
      (cs.takeWhile isNumChar, trimChars (cs.dropWhile isNumChar))
    else
      ((cs.dropWhile (fun c2 => !isNumStart c2)).takeWhile isNumChar,
        trimChars (cs.takeWhile (fun c2 => !isNumStart c2)))

/-- Modelled from the spec: `scanner::scan_post` (scanner.rs is not in the
sources).  Grammar `  ACCOUNT  AMOUNT [@ PRICE]`: a run of two-or-more
spaces separates ACCOUNT from the amount region, `@` introduces the price;
each region is a signed numeral adjacent to a commodity symbol.  Returns
`[account, amount, symbol, price, price_symbol]`; malformed sections yield
empty tokens. -/
def scan_post (input : String) : List String :=
  let t := trimChars input.toList
  let ar := splitAccount t
  let regions :=
    match ar.2.findIdx? (fun c => c == '@') with
    | some i => (trimChars (ar.2.take i), trimChars (ar.2.drop (i + 1)))
    | none => (ar.2, ([] : List Char))
  let a := splitNumSym regions.1
  let p := splitNumSym regions.2
  [String.mk (trimChars ar.1), String.mk a.1, String.mk a.2, String.mk p.1, String.mk p.2]

/-- The commodity block of `parse_post`: parse the token and, when a
commodity is present, intern it, returning its index and the journal. -/
def internCommodity (token : String) (j : Journal) : Option Nat × Journal :=
  match Commodity.parse token with
  | some c =>
    let r := j.add_commodity c
    (some r.1, r.2)
  | none => (none, j)

/-- `parse_post` (src/parser.rs lines 212-266): scan the line, intern the
account and commodities, build the Post and link it into the account's
`post_indices` and the xact's `posts`; an out-of-range `xact_index`
panics (`unwrap`), modelled as `none`. -/
def parse_post (input : String) (xact_index : Nat) (j : Journal) : Option Journal :=
  let tokens := scan_post input
  let ar := j.add_account (Account.parse (tokens.getD 0 ""))
  let cr := internCommodity (tokens.getD 2 "") ar.2
  let amount := Amount.parse (tokens.getD 1 "") cr.1
  let pr := internCommodity (tokens.getD 4 "") cr.2
  let cost := Amount.parse (tokens.getD 3 "") pr.1
  let post := Post.new ar.1 xact_index amount cost
  let pj := pr.2.add_post post
  match pj.2.accounts.get? ar.1 with
  | none => none
  | some acct =>
    let accounts5 := pj.2.accounts.set ar.1 { acct with post_indices := acct.post_indices ++ [pj.1] }
    let j5 := { pj.2 with accounts := accounts5 }
    match j5.xacts.get? xact_index with
    | none => none
    | some x =>
      some { j5 with xacts := j5.xacts.set xact_index { x with posts := x.posts ++ [pj.1] } }

/-- The distinct fatal conditions of the Balancer (spec §7); each maps to
one panic site of the source. -/
inductive BalanceErr where
  | MissingXact
  | MissingPost
  | CommodityMismatch
  | DoubleNullPost
  | NoBalance
  deriving DecidableEq

/-- Accumulation loop of `finalize_indexed` (src/xact.rs lines 154-174):
walk the xact's post indices in order, summing present amounts into the
running balance and remembering the (unique) post with an absent amount;
a second absent amount hits the `todo!()` (the spec's `DoubleNullPost`). -/
def balLoop (j : Journal) : List Nat → Option Amount → Option Nat →
    Except BalanceErr (Option Amount × Option Nat)
  | [], bal, np => .ok (bal, np)
  | pi :: rest, bal, np =>
    match j.posts.get? pi with
    | none => .error .MissingPost
    | some post =>
      match post.amount with
      | some a =>
        match bal with
        | none => balLoop j rest (some (Amount.copy_from a)) np
        | some b =>
          match b.add a with
          | none => .error .CommodityMismatch
          | some b2 => balLoop j rest (some b2) np
      | none =>
        match np with
        | some _ => .error .DoubleNullPost
        | none => balLoop j rest bal (some pi)

/-- `finalize_indexed` (src/xact.rs lines 147-195): balance the xact's
posts; if one post had no amount, overwrite it in place with the inverse of
the accumulated balance (`balance.unwrap()` panics when every post was
absent, the spec's `NoBalance` defensive case). -/
def finalize_indexed (xact_index : Nat) (j : Journal) : Except BalanceErr Journal :=
  match j.xacts.get? xact_index with
  | none => .error .MissingXact
  | some xact =>
    match balLoop j xact.posts none none with
    | .error e => .error e
    | .ok r =>
      match r.2 with
      | none => .ok j
      | some pi =>
        match j.posts.get? pi with
        | none => .error .MissingPost
        | some post =>
          match r.1 with
          | none => .error .NoBalance
          | some b =>
            .ok { j with posts := j.posts.set pi { post with amount := some b.inverse } }

/-- Accumulation loop of the list-based `finalize` (src/xact.rs lines
77-94): every post's amount is unwrapped (`None` panics); a post whose
present amount `is_null` is remembered as the null post (a second one hits
the `todo!()`); other amounts accumulate.  `i` is the position reached. -/
def finalizeBal : List Post → Option Amount → Option Nat → Nat →
    Option (Option Amount × Option Nat)
  | [], bal, np, _ => some (bal, np)
  | p :: rest, bal, np, i =>
    match p.amount with
    | none => none
    | some a =>
      if a.is_null = false then
        match bal with
        | none => finalizeBal rest (some (Amount.copy_from a)) np (i + 1)
        | some b =>
          match b.add a with
          | none => none
          | some b2 => finalizeBal rest (some b2) np (i + 1)
      else
        match np with
        | some _ => none
        | none => finalizeBal rest bal (some i) (i + 1)

/-- Linking phase of `finalize` (src/xact.rs lines 115-144): move the Xact
into the Journal, point every post at it, append the posts to the post
arena and record their indices in the xact's `posts`. -/
def finalizeLink (xact : Xact) (posts : List Post) (j : Journal) : Journal :=
  let xr := j.add_xact xact
  let posts2 := posts.map (fun p => { p with xact := xr.1 })
  let r := posts2.foldl
    (fun (acc : Journal × List Nat) p =>
      let pr := acc.1.add_post p
      (pr.2, acc.2 ++ [pr.1]))
    (xr.2, [])
  match r.1.xacts.get? xr.1 with
  | none => r.1
  | some x => { r.1 with xacts := r.1.xacts.set xr.1 { x with posts := x.posts ++ r.2 } }

/-- `finalize` (src/xact.rs lines 71-145): balance the given post list (the
null post, if any, receives the inverse of the accumulated balance — with
`balance.unwrap()` panicking when there was nothing to accumulate), then
link everything into the Journal. -/
def finalize (xact : Xact) (posts : List Post) (j : Journal) : Option Journal :=
  match finalizeBal posts none none 0 with
  | none => none
  | some r =>
    match r.2 with
    | none => some (finalizeLink xact posts j)
    | some i =>
      match r.1 with
      | none => none
      | some b =>
        match posts.get? i with
        | none => some (finalizeLink xact posts j)
        | some p => some (finalizeLink xact (posts.set i { p with amount := some b.inverse }) j)

/-- Body loop of `Parser::xact_directive` (src/parser.rs lines 158-208):
read lines until a blank line or end of stream; a posting line is handed to
`parse_post` and then — still inside the loop — `finalize_indexed` runs on
the (possibly incomplete) xact.  The `break`s at the blank line and at end
of stream skip that call.  The result carries the remaining stream and the
number of `finalize_indexed` invocations; every panic (`todo!` on a
trailing note, "should not happen", or a panic inside the callees) is
`none`. -/
def xactBody : List String → Nat → Journal → Nat →
    Option (Journal × List String × Nat)
  | [], _, j, cnt => some (j, [], cnt)
  | line :: rest, xact_index, j, cnt =>
    if line = "" then none
    else
      match line.toList.head? with
      | some ' ' =>
        let input := String.mk (line.toList.dropWhile Char.isWhitespace)
        match input.toList.head? with
        | some ';' => none
        | _ =>
          match parse_post input xact_index j with
          | none => none
          | some j2 =>
            match finalize_indexed xact_index j2 with
            | .error _ => none
            | .ok j3 => xactBody rest xact_index j3 (cnt + 1)
      | some '\r' => some (j, rest, cnt)
      | _ => none

/-- `Parser::xact_directive` (src/parser.rs lines 150-209): tokenize the
header line, create and register the Xact, then run the body loop. -/
def xact_directive (header : String) (rest : List String) (j : Journal) :
    Option (Journal × List String × Nat) :=
  match tokenize_xact_header header with
  | none => none
  | some t =>
    match Xact.create t.1 t.2.1 t.2.2.1 t.2.2.2 with
    | none => none
    | some xact =>
      let xr := j.add_xact xact
      xactBody rest xr.1 xr.2 0

/-- Does the post cited by `pi` exist and have an absent amount? -/
def isNullAt (j : Journal) (pi : Nat) : Bool :=
  match j.posts.get? pi with
  | some p => p.amount.isNone
  | none => false

/-- Commodity index carried by the (present) amount of the post cited by
`pi`. -/
def amountCiAt (j : Journal) (pi : Nat) : Option (Option Nat) :=
  match j.posts.get? pi with
  | some p => p.amount.map (fun a => a.commodity_index)
  | none => none

/-- Rational value contributed by the post cited by `pi` (absent amounts
contribute zero). -/
def valAt (j : Journal) (pi : Nat) : ℚ :=
  match j.posts.get? pi with
  | some p =>
    match p.amount with
    | some a => a.quantity.val
    | none => 0
  | none => 0

/-- Sum of the amounts cited by a post-index list. -/
def listSum (j : Journal) (ps : List Nat) : ℚ := (ps.map (valAt j)).sum

/-- Value of an optional running balance. -/
def balVal : Option Amount → ℚ
  | none => 0
  | some a => a.quantity.val

/-- Number of cited posts with an absent amount. -/
def nullsOf (j : Journal) (ps : List Nat) : Nat :=
  (ps.filter (fun pi => isNullAt j pi)).length

/-- Rational value of one post of a plain post list. -/
def postVal (p : Post) : ℚ :=
  match p.amount with
  | some a => a.quantity.val
  | none => 0

/-- Sum of the values of a plain post list. -/
def postsSum (posts : List Post) : ℚ := (posts.map postVal).sum

/-- Is the post's amount present and the null amount (zero quantity, no
commodity)? -/
def isNullPost (p : Post) : Bool :=
  match p.amount with
  | some a => a.is_null
  | none => false

/-- Position (from `i0`) of the first post whose present amount is the null
amount. -/
def nullIdx : List Post → Nat → Option Nat
  | [], _ => none
  | p :: rest, i => if isNullPost p then some i else nullIdx rest (i + 1)

theorem Decimal.val_add (a b : Decimal) : (a.add b).val = a.val + b.val := by
  obtain ⟨m1, s1⟩ := a
  obtain ⟨m2, s2⟩ := b
  simp only [Decimal.add, Decimal.val]
  have h1 : (10 : ℚ) ^ (max s1 s2 - s1) = 10 ^ max s1 s2 / 10 ^ s1 := by
    rw [eq_div_iff (by positivity), ← pow_add]
    congr 1
    omega
  have h2 : (10 : ℚ) ^ (max s1 s2 - s2) = 10 ^ max s1 s2 / 10 ^ s2 := by
    rw [eq_div_iff (by positivity), ← pow_add]
    congr 1
    omega
  push_cast
  rw [h1, h2]
  field_simp
  ring

theorem Decimal.val_of_is_zero (d : Decimal) (h : d.is_zero = true) : d.val = 0 := by
  obtain ⟨m, s⟩ := d
  simp only [Decimal.is_zero, beq_iff_eq] at h
  simp [Decimal.val, h]

theorem Amount.inverse_commodity (a : Amount) :
    (Amount.inverse a).commodity_index = a.commodity_index := rfl

theorem Amount.inverse_val (a : Amount) :
    (Amount.inverse a).quantity.val = -(a.quantity.val) := by
  obtain ⟨⟨m, s⟩, ci⟩ := a
  simp only [Amount.inverse, Decimal.mul, Decimal.val]
  push_cast
  ring

theorem Amount.add_spec (b a : Amount) (h : b.commodity_index = a.commodity_index) :
    ∃ r, Amount.add b a = some r ∧
      r.commodity_index = b.commodity_index ∧
      r.quantity.val = b.quantity.val + a.quantity.val := by
  by_cases hz : a.quantity.is_zero = true
  · refine ⟨b, ?_, rfl, ?_⟩
    · unfold Amount.add
      rw [if_neg (by simp [h]), if_pos hz]
    · rw [Decimal.val_of_is_zero _ hz]
      ring
  · refine ⟨⟨b.quantity.add a.quantity, b.commodity_index⟩, ?_, rfl, Decimal.val_add _ _⟩
    unfold Amount.add
    rw [if_neg (by simp [h]), if_neg hz]

/-- C4 (counterexample): the claim says an amount with the absent-commodity
marker combines with a concrete-commodity amount, but `Amount::add` treats
`None` vs `Some` commodity indices as a mismatch and panics. -/
theorem c4_absent_marker_still_fails :
    Amount.add ⟨⟨5, 0⟩, none⟩ ⟨⟨3, 0⟩, some 0⟩ = none := by decide

/-- C4 (amended): `Amount::add` fails exactly when the two `commodity_index`
values differ — absent vs. present counts as a mismatch — and returns
normally iff the indices are equal (both absent included). -/
theorem c4_add_succeeds_iff_commodity_eq (a b : Amount) :
    (Amount.add a b).isSome = true ↔ a.commodity_index = b.commodity_index := by
  unfold Amount.add
  by_cases h : a.commodity_index = b.commodity_index
  · rw [if_neg (by simp [h])]
    by_cases hz : b.quantity.is_zero = true
    · simp [hz, h]
    · simp [hz, h]
  · simp [h]

/-- C9 (counterexample): the claim says adding a zero-quantity amount is a
no-op regardless of commodity tags, but the mismatch check runs first, so a
zero amount with a different commodity index panics. -/
theorem c9_zero_add_mismatch_still_fails :
    Amount.add ⟨⟨2, 0⟩, some 0⟩ ⟨⟨0, 0⟩, none⟩ = none := by decide

/-- C9 (amended): adding a zero-quantity amount whose commodity index
matches is a structural no-op: the call returns normally and leaves the
receiver completely unchanged. -/
theorem c9_add_zero_is_noop (a b : Amount)
    (hz : b.quantity.is_zero = true) (hc : a.commodity_index = b.commodity_index) :
    Amount.add a b = some a := by
  unfold Amount.add
  rw [if_neg (by simp [hc]), if_pos hz]

/-- C9 witness: a concrete zero-quantity addition with matching commodity. -/
theorem c9_add_zero_is_noop_witness :
    Amount.add ⟨⟨7, 0⟩, some 2⟩ ⟨⟨0, 3⟩, some 2⟩ = some ⟨⟨7, 0⟩, some 2⟩ :=
  c9_add_zero_is_noop ⟨⟨7, 0⟩, some 2⟩ ⟨⟨0, 3⟩, some 2⟩ (by decide) (by decide)

theorem payeeNote_fst (line date aux : List Char) (e : Nat) (r : List Char × List Char × List Char × List Char)
    (h : payeeNote line date aux e = some r) : r.1 = date := by
  unfold payeeNote at h
  cases hs : subAt [' ', ' ', ';'] (line.drop e) with
  | some i =>
    rw [hs] at h
    simp only [Option.some.injEq] at h
    rw [← h]
  | none =>
    rw [hs] at h
    by_cases hb : e + 1 > line.length
    · rw [if_pos hb] at h
      exact absurd h (by simp)
    · rw [if_neg hb] at h
      simp only [Option.some.injEq] at h
      rw [← h]

/-- C6 (counterexample): on the grammatically valid header `0=0`
(DATE `=` AUXDATE, no payee) the tokenizer does not return at all —
the aux-date section runs to end of line and the payee slice
`line[end+1..]` is out of range, a panic. -/
theorem c6_header_aux_to_eol_panics : parse_xact_header "0=0".toList = none := by decide

/-- C6 (amended): whenever the header tokenizer returns (it panics exactly
on an empty line or when a `=AUXDATE` section runs to end of line), the
DATE token is the text before the first `=` or space, the whole line when
neither occurs; the two cited examples hold. -/
theorem c6_header_tokenizer :
    (∀ l : List Char, l ≠ [] →
        l.findIdx? (fun c => c == '=' || c == ' ') = none →
        parse_xact_header l = some (l, [], [], [])) ∧
    (∀ (l : List Char) (i : Nat) (r : List Char × List Char × List Char × List Char),
        l.findIdx? (fun c => c == '=' || c == ' ') = some i →
        parse_xact_header l = some r → r.1 = l.take i) ∧
    parse_xact_header "2023-05-01 Payee  ; Note".toList =
      some ("2023-05-01".toList, [], "Payee".toList, "Note".toList) ∧
    parse_xact_header "2023-05-01".toList = some ("2023-05-01".toList, [], [], []) := by
  refine ⟨?_, ?_, by decide, by decide⟩
  · intro l hne hfind
    unfold parse_xact_header
    rw [if_neg hne, hfind]
  · intro l i r hfind hparse
    unfold parse_xact_header at hparse
    by_cases hne : l = []
    · rw [if_pos hne] at hparse
      exact absurd hparse (by simp)
    · rw [if_neg hne, hfind] at hparse
      replace hparse : headerWithSep l i = some r := hparse
      unfold headerWithSep at hparse
      split at hparse
      · exact payeeNote_fst _ _ _ _ _ hparse
      · split at hparse
        · exact payeeNote_fst _ _ _ _ _ hparse
        · split at hparse
          · exact payeeNote_fst _ _ _ _ _ hparse
          · exact absurd hparse (by simp)

/-- C6 witness: the DATE rule applied at the concrete header `0 1`. -/
theorem c6_header_tokenizer_witness : (['0'] : List Char) = "0 1".toList.take 1 :=
  c6_header_tokenizer.2.1 "0 1".toList 1 (['0'], [], ['1'], []) (by decide) (by decide)

theorem idxOfP_none_iff {α : Type} (p : α → Bool) (l : List α) :
    idxOfP p l = none ↔ ∀ x ∈ l, p x = false := by
  induction l with
  | nil => simp [idxOfP]
  | cons y rest ih =>
    unfold idxOfP
    by_cases hy : p y = true
    · simp [hy]
    · simp only [Bool.not_eq_true] at hy
      simp [hy, ih]

theorem idxOfP_some_get {α : Type} (p : α → Bool) :
    ∀ (l : List α) (i : Nat), idxOfP p l = some i → ∃ x, l.get? i = some x ∧ p x = true := by
  intro l
  induction l with
  | nil => intro i h; simp [idxOfP] at h
  | cons y rest ih =>
    intro i h
    unfold idxOfP at h
    by_cases hy : p y = true
    · rw [if_pos hy] at h
      simp only [Option.some.injEq] at h
      subst h
      exact ⟨y, rfl, hy⟩
    · rw [if_neg hy] at h
      cases hr : idxOfP p rest with
      | none => rw [hr] at h; simp at h
      | some k =>
        rw [hr] at h
        simp only [Option.map_some', Option.some.injEq] at h
        subst h
        obtain ⟨x, hg, hp⟩ := ih k hr
        exact ⟨x, hg, hp⟩

theorem idxOfP_lt {α : Type} (p : α → Bool) (l : List α) (i : Nat)
    (h : idxOfP p l = some i) : i < l.length := by
  obtain ⟨x, hg, _⟩ := idxOfP_some_get p l i h
  exact List.get?_eq_some.mp hg |>.1

theorem idxOfP_append_none {α : Type} (p : α → Bool) (l : List α) (x : α)
    (h : idxOfP p l = none) :
    idxOfP p (l ++ [x]) = if p x then some l.length else none := by
  induction l with
  | nil =>
    by_cases hx : p x = true <;> simp [idxOfP, hx]
  | cons y rest ih =>
    simp only [idxOfP, List.cons_append, List.append_eq] at h ⊢
    by_cases hy : p y = true
    · rw [if_pos hy] at h
      exact absurd h (by simp)
    · rw [if_neg hy] at h ⊢
      rw [ih (by simpa using h)]
      by_cases hx : p x = true <;> simp [hx]

theorem add_commodity_same_symbol (j : Journal) (c1 c2 : Commodity)
    (h : c1.symbol = c2.symbol) :
    ((j.add_commodity c1).2.add_commodity c2).1 = (j.add_commodity c1).1 := by
  have hp : (fun x : Commodity => x.symbol == c2.symbol)
      = (fun x : Commodity => x.symbol == c1.symbol) := by
    funext x
    rw [h]
  unfold Journal.add_commodity
  rw [hp]
  cases hf : idxOfP (fun x : Commodity => x.symbol == c1.symbol) j.commodities with
  | some i => simp [hf]
  | none => simp [hf, idxOfP_append_none _ _ _ hf]

theorem add_commodity_distinct_symbol (j : Journal) (c1 c2 : Commodity)
    (h : c1.symbol ≠ c2.symbol) :
    ((j.add_commodity c1).2.add_commodity c2).1 ≠ (j.add_commodity c1).1 := by
  unfold Journal.add_commodity
  cases hf1 : idxOfP (fun x : Commodity => x.symbol == c1.symbol) j.commodities with
  | some i =>
    simp only [hf1]
    cases hf2 : idxOfP (fun x : Commodity => x.symbol == c2.symbol) j.commodities with
    | some i2 =>
      simp only [hf2]
      intro he
      obtain ⟨x1, hg1, hp1⟩ := idxOfP_some_get _ _ _ hf1
      obtain ⟨x2, hg2, hp2⟩ := idxOfP_some_get _ _ _ hf2
      rw [he] at hg2
      rw [hg1] at hg2
      cases hg2
      rw [beq_iff_eq] at hp1 hp2
      exact h (hp1 ▸ hp2)
    | none =>
      simp only [hf2]
      have := idxOfP_lt _ _ _ hf1
      omega
  | none =>
    simp only [hf1]
    cases hf2 : idxOfP (fun x : Commodity => x.symbol == c2.symbol)
        (j.commodities ++ [c1]) with
    | some i2 =>
      simp only [hf2]
      intro he
      obtain ⟨x2, hg2, hp2⟩ := idxOfP_some_get _ _ _ hf2
      rw [he] at hg2
      rw [List.get?_eq_getElem?, List.getElem?_concat_length] at hg2
      cases hg2
      rw [beq_iff_eq] at hp2
      exact h hp2
    | none =>
      simp only [hf2, List.length_append, List.length_cons, List.length_nil]
      omega

theorem add_commodity_nodup (j : Journal) (c : Commodity)
    (h : (j.commodities.map Commodity.symbol).Nodup) :
    ((j.add_commodity c).2.commodities.map Commodity.symbol).Nodup := by
  unfold Journal.add_commodity
  cases hf : idxOfP (fun x : Commodity => x.symbol == c.symbol) j.commodities with
  | some i => simpa [hf] using h
  | none =>
    simp only [hf, List.map_append, List.map_cons, List.map_nil]
    rw [List.nodup_append]
    refine ⟨h, List.nodup_singleton _, ?_⟩
    intro s hs
    simp only [List.mem_singleton]
    intro he
    obtain ⟨x, hx, hsym⟩ := List.mem_map.mp hs
    have := (idxOfP_none_iff _ _).mp hf x hx
    rw [hsym, he] at this
    simp at this

theorem add_commodity_grows (j : Journal) (c : Commodity) :
    j.commodities <+: (j.add_commodity c).2.commodities := by
  unfold Journal.add_commodity
  cases hf : idxOfP (fun x : Commodity => x.symbol == c.symbol) j.commodities with
  | some i => simp [hf]
  | none => simp [hf]

theorem internCommodity_nodup (tok : String) (j : Journal)
    (h : (j.commodities.map Commodity.symbol).Nodup) :
    ((internCommodity tok j).2.commodities.map Commodity.symbol).Nodup := by
  unfold internCommodity
  cases Commodity.parse tok with
  | some c => exact add_commodity_nodup j c h
  | none => exact h

theorem internCommodity_grows (tok : String) (j : Journal) :
    j.commodities <+: (internCommodity tok j).2.commodities := by
  unfold internCommodity
  cases Commodity.parse tok with
  | some c => exact add_commodity_grows j c
  | none => exact ⟨[], by simp⟩

theorem add_account_commodities (j : Journal) (a : Account) :
    (j.add_account a).2.commodities = j.commodities := by
  unfold Journal.add_account
  cases hf : idxOfP (fun x : Account => x.name == a.name) j.accounts <;> simp [hf]

theorem parse_post_inv (input : String) (xi : Nat) (j j2 : Journal)
    (h : parse_post input xi j = some j2) :
    ((j.commodities.map Commodity.symbol).Nodup → (j2.commodities.map Commodity.symbol).Nodup)
      ∧ j.commodities <+: j2.commodities := by
  unfold parse_post at h
  dsimp only at h
  split at h
  · exact absurd h (by simp)
  · split at h
    · exact absurd h (by simp)
    · simp only [Option.some.injEq] at h
      subst h
      constructor
      · intro hn
        have h1 : ((j.add_account (Account.parse ((scan_post input).getD 0 ""))).2.commodities.map
            Commodity.symbol).Nodup := by
          rw [add_account_commodities]
          exact hn
        exact internCommodity_nodup _ _ (internCommodity_nodup _ _ h1)
      · have h1 : j.commodities
            = (j.add_account (Account.parse ((scan_post input).getD 0 ""))).2.commodities :=
          (add_account_commodities _ _).symm
        rw [h1]
        exact (internCommodity_grows _ _).trans (internCommodity_grows _ _)

/-- C2: commodity interning in one Journal.  Same symbol → same
`CommodityIndex`; distinct symbols → distinct indices; interning keeps the
symbol table duplicate-free (each distinct symbol stored at most once); and
every posting processed by `parse_post` preserves that invariant while the
commodity arena only ever grows (indices are never invalidated). -/
theorem c2_commodity_interning :
    (∀ (j : Journal) (c1 c2 : Commodity), c1.symbol = c2.symbol →
        ((j.add_commodity c1).2.add_commodity c2).1 = (j.add_commodity c1).1) ∧
    (∀ (j : Journal) (c1 c2 : Commodity), c1.symbol ≠ c2.symbol →
        ((j.add_commodity c1).2.add_commodity c2).1 ≠ (j.add_commodity c1).1) ∧
    (∀ (j : Journal) (c : Commodity), (j.commodities.map Commodity.symbol).Nodup →
        ((j.add_commodity c).2.commodities.map Commodity.symbol).Nodup) ∧
    (∀ (input : String) (xi : Nat) (j j2 : Journal), parse_post input xi j = some j2 →
        (j.commodities.map Commodity.symbol).Nodup →
        (j2.commodities.map Commodity.symbol).Nodup ∧ j.commodities <+: j2.commodities) :=
  ⟨add_commodity_same_symbol, add_commodity_distinct_symbol, add_commodity_nodup,
    fun input xi j j2 h hn =>
      ⟨(parse_post_inv input xi j j2 h).1 hn, (parse_post_inv input xi j j2 h).2⟩⟩

/-- C2 witness: one concrete posting interning `EUR` into an initially
empty symbol table. -/
theorem c2_commodity_interning_witness :
    (([⟨"EUR"⟩] : List Commodity).map Commodity.symbol).Nodup ∧
      ([] : List Commodity) <+: [⟨"EUR"⟩] :=
  c2_commodity_interning.2.2.2 "  Assets  20 EUR" 0
    ⟨[⟨none, none, "p", [], none⟩], [], [], []⟩
    ⟨[⟨none, none, "p", [0], none⟩],
      [⟨0, 0, some ⟨⟨20, 0⟩, some 0⟩, none⟩],
      [⟨"Assets", [0]⟩], [⟨"EUR"⟩]⟩
    (by decide) (by decide)

/-- C3 (code bug): the body loop of `xact_directive` invokes the Balancer
after every posting line instead of once at the body's termination.  On the
repository's own minimal two-posting transaction the Balancer runs twice
(not once), and on a transaction whose elided posting comes first — valid
under the spec's at-termination rule — the premature invocation finds a
null post with nothing accumulated and panics, aborting the parse. -/
theorem c3_balancer_runs_per_line :
    ((xact_directive "2023-04-10 Payee\r\n"
        ["    Expenses  20\r\n", "    Assets\r\n", "\r\n"] Journal.new).map
      (fun r => r.2.2) = some 2) ∧
    xact_directive "2023-04-10 Payee\r\n"
        ["    Assets\r\n", "    Expenses  20\r\n", "\r\n"] Journal.new = none := by
  constructor
  · decide
  · decide

theorem balLoop_run (j : Journal) (ci : Option Nat) :
    ∀ (ps : List Nat) (bal : Option Amount) (np : Option Nat),
    (∀ pi ∈ ps, (j.posts.get? pi).isSome = true) →
    (∀ pi ∈ ps, isNullAt j pi = false → amountCiAt j pi = some ci) →
    (∀ b, bal = some b → b.commodity_index = ci) →
    nullsOf j ps + (if np.isSome then 1 else 0) ≤ 1 →
    ∃ bal2,
      balLoop j ps bal np = .ok (bal2, np.or (ps.find? (fun pi => isNullAt j pi))) ∧
      balVal bal2 = balVal bal + listSum j ps ∧
      (∀ b, bal2 = some b → b.commodity_index = ci) ∧
      (bal2.isSome = true ↔ (bal.isSome = true ∨ ∃ pi ∈ ps, isNullAt j pi = false)) := by
  intro ps
  induction ps with
  | nil =>
    intro bal np hvalid hci hbal hn
    refine ⟨bal, ?_, by simp [listSum], hbal, by simp⟩
    cases np <;> simp [balLoop, Option.or]
  | cons pi rest ih =>
    intro bal np hvalid hci hbal hn
    have hv0 : (j.posts.get? pi).isSome = true := hvalid pi (by simp)
    obtain ⟨post, hpost⟩ := Option.isSome_iff_exists.mp hv0
    have hpost2 : j.posts[pi]? = some post := by
      rw [← List.get?_eq_getElem?]
      exact hpost
    have hvr : ∀ x ∈ rest, (j.posts.get? x).isSome = true :=
      fun x hx => hvalid x (by simp [hx])
    have hcir : ∀ x ∈ rest, isNullAt j x = false → amountCiAt j x = some ci :=
      fun x hx h => hci x (by simp [hx]) h
    cases ha : post.amount with
    | some a =>
      have hnull : isNullAt j pi = false := by simp [isNullAt, hpost, hpost2, ha]
      have hciA : a.commodity_index = ci := by
        have h0 := hci pi (by simp) hnull
        simp only [amountCiAt, hpost, hpost2, ha, Option.map_some', Option.some.injEq] at h0
        exact h0
      have hfind : (pi :: rest).find? (fun x => isNullAt j x)
          = rest.find? (fun x => isNullAt j x) := List.find?_cons_of_neg _ (by simp [hnull])
      have hnulls : nullsOf j (pi :: rest) = nullsOf j rest := by
        simp [nullsOf, List.filter_cons, hnull]
      have hval : valAt j pi = a.quantity.val := by simp [valAt, hpost, hpost2, ha]
      have hsum : listSum j (pi :: rest) = a.quantity.val + listSum j rest := by
        simp [listSum, hval]
      cases bal with
      | none =>
        have step : balLoop j (pi :: rest) none np
            = balLoop j rest (some (Amount.copy_from a)) np := by
          simp [balLoop, hpost, hpost2, ha]
        obtain ⟨bal2, h1, h2, h3, h4⟩ := ih (some (Amount.copy_from a)) np hvr hcir
          (fun b hb => by cases hb; exact hciA)
          (by rw [hnulls] at hn; exact hn)
        refine ⟨bal2, by rw [step, h1, hfind], ?_, h3, ?_⟩
        · rw [h2, hsum]
          simp [balVal, Amount.copy_from]
        · constructor
          · intro _
            exact Or.inr ⟨pi, by simp, hnull⟩
          · intro _
            exact h4.mpr (Or.inl rfl)
      | some b =>
        have hbci : b.commodity_index = a.commodity_index := by
          rw [hbal b rfl, hciA]
        obtain ⟨r, hradd, hrci, hrval⟩ := Amount.add_spec b a hbci
        have step : balLoop j (pi :: rest) (some b) np
            = balLoop j rest (some r) np := by
          simp [balLoop, hpost, hpost2, ha, hradd]
        obtain ⟨bal2, h1, h2, h3, h4⟩ := ih (some r) np hvr hcir
          (fun x hx => by cases hx; rw [hrci]; exact hbal b rfl)
          (by rw [hnulls] at hn; exact hn)
        refine ⟨bal2, by rw [step, h1, hfind], ?_, h3, ?_⟩
        · rw [h2, hsum]
          simp only [balVal, hrval]
          ring
        · constructor
          · intro _
            exact Or.inl rfl
          · intro _
            exact h4.mpr (Or.inl rfl)
    | none =>
      have hnull : isNullAt j pi = true := by simp [isNullAt, hpost, hpost2, ha]
      have hnulls : nullsOf j (pi :: rest) = 1 + nullsOf j rest := by
        simp [nullsOf, List.filter_cons, hnull]
        omega
      have hval : valAt j pi = 0 := by simp [valAt, hpost, hpost2, ha]
      have hsum : listSum j (pi :: rest) = listSum j rest := by
        simp [listSum, hval]
      cases np with
      | some x =>
        exfalso
        rw [hnulls] at hn
        simp only [Option.isSome_some, if_pos] at hn
        omega
      | none =>
        have step : balLoop j (pi :: rest) bal none
            = balLoop j rest bal (some pi) := by
          simp [balLoop, hpost, hpost2, ha]
        obtain ⟨bal2, h1, h2, h3, h4⟩ := ih bal (some pi) hvr hcir hbal
          (by rw [hnulls] at hn; simp at hn ⊢; omega)
        have hfind : (pi :: rest).find? (fun x => isNullAt j x) = some pi :=
          List.find?_cons_of_pos _ (by simp [hnull])
        refine ⟨bal2, ?_, by rw [h2, hsum], h3, ?_⟩
        · rw [step, h1]
          simp [Option.or, hfind]
        · rw [h4]
          constructor
          · rintro (hb | ⟨x, hx, hxn⟩)
            · exact Or.inl hb
            · exact Or.inr ⟨x, by simp [hx], hxn⟩
          · rintro (hb | ⟨x, hx, hxn⟩)
            · exact Or.inl hb
            · rcases List.mem_cons.mp hx with h | h
              · subst h
                rw [hnull] at hxn
                cases hxn
              · exact Or.inr ⟨x, h, hxn⟩

theorem balLoop_double_null (j : Journal) (ci : Option Nat) :
    ∀ (ps : List Nat) (bal : Option Amount) (np : Option Nat),
    (∀ pi ∈ ps, (j.posts.get? pi).isSome = true) →
    (∀ pi ∈ ps, isNullAt j pi = false → amountCiAt j pi = some ci) →
    (∀ b, bal = some b → b.commodity_index = ci) →
    2 ≤ nullsOf j ps + (if np.isSome then 1 else 0) →
    balLoop j ps bal np = .error .DoubleNullPost := by
  intro ps
  induction ps with
  | nil =>
    intro bal np _ _ _ hn
    exfalso
    simp [nullsOf] at hn
    cases np <;> simp at hn
  | cons pi rest ih =>
    intro bal np hvalid hci hbal hn
    have hv0 : (j.posts.get? pi).isSome = true := hvalid pi (by simp)
    obtain ⟨post, hpost⟩ := Option.isSome_iff_exists.mp hv0
    have hpost2 : j.posts[pi]? = some post := by
      rw [← List.get?_eq_getElem?]
      exact hpost
    have hvr : ∀ x ∈ rest, (j.posts.get? x).isSome = true :=
      fun x hx => hvalid x (by simp [hx])
    have hcir : ∀ x ∈ rest, isNullAt j x = false → amountCiAt j x = some ci :=
      fun x hx h => hci x (by simp [hx]) h
    cases ha : post.amount with
    | some a =>
      have hnull : isNullAt j pi = false := by simp [isNullAt, hpost, hpost2, ha]
      have hciA : a.commodity_index = ci := by
        have h0 := hci pi (by simp) hnull
        simp only [amountCiAt, hpost, hpost2, ha, Option.map_some', Option.some.injEq] at h0
        exact h0
      have hnulls : nullsOf j (pi :: rest) = nullsOf j rest := by
        simp [nullsOf, List.filter_cons, hnull]
      cases bal with
      | none =>
        have step : balLoop j (pi :: rest) none np
            = balLoop j rest (some (Amount.copy_from a)) np := by
          simp [balLoop, hpost, hpost2, ha]
        rw [step]
        exact ih (some (Amount.copy_from a)) np hvr hcir
          (fun b hb => by cases hb; exact hciA)
          (by rw [hnulls] at hn; exact hn)
      | some b =>
        have hbci : b.commodity_index = a.commodity_index := by
          rw [hbal b rfl, hciA]
        obtain ⟨r, hradd, hrci, _⟩ := Amount.add_spec b a hbci
        have step : balLoop j (pi :: rest) (some b) np
            = balLoop j rest (some r) np := by
          simp [balLoop, hpost, hpost2, ha, hradd]
        rw [step]
        exact ih (some r) np hvr hcir
          (fun x hx => by cases hx; rw [hrci]; exact hbal b rfl)
          (by rw [hnulls] at hn; exact hn)
    | none =>
      have hnull : isNullAt j pi = true := by simp [isNullAt, hpost, hpost2, ha]
      have hnulls : nullsOf j (pi :: rest) = 1 + nullsOf j rest := by
        simp [nullsOf, List.filter_cons, hnull]
        omega
      cases np with
      | some x =>
        simp [balLoop, hpost, hpost2, ha]
      | none =>
        have step : balLoop j (pi :: rest) bal none
            = balLoop j rest bal (some pi) := by
          simp [balLoop, hpost, hpost2, ha]
        rw [step]
        exact ih bal (some pi) hvr hcir hbal
          (by rw [hnulls] at hn; simp at hn ⊢; omega)

/-- C5: at most one posting of a transaction may have an absent amount —
when the Balancer reaches a second absent-amount posting (the cited posts
all existing and the explicit ones sharing one commodity index, so nothing
fails earlier) it aborts with the fatal `DoubleNullPost` condition, the
`todo!()` panic site of the source. -/
theorem c5_double_null_post (j : Journal) (xi : Nat) (xact : Xact) (ci : Option Nat)
    (hx : j.xacts.get? xi = some xact)
    (hvalid : ∀ pi ∈ xact.posts, (j.posts.get? pi).isSome = true)
    (hci : ∀ pi ∈ xact.posts, isNullAt j pi = false → amountCiAt j pi = some ci)
    (h2 : 2 ≤ nullsOf j xact.posts) :
    finalize_indexed xi j = .error .DoubleNullPost := by
  have hx2 : j.xacts[xi]? = some xact := by
    rw [← List.get?_eq_getElem?]
    exact hx
  have hb := balLoop_double_null j ci xact.posts none none hvalid hci
    (by intro b hb; cases hb) (by simpa using h2)
  simp [finalize_indexed, hx, hx2, hb]

/-- C5 witness: a concrete transaction with one explicit and two elided
postings. -/
theorem c5_double_null_post_witness :
    finalize_indexed 0
      ⟨[⟨none, none, "p", [0, 1, 2], none⟩],
        [⟨0, 0, some ⟨⟨20, 0⟩, none⟩, none⟩, ⟨0, 0, none, none⟩, ⟨0, 0, none, none⟩],
        [], []⟩ = .error .DoubleNullPost :=
  c5_double_null_post _ 0 ⟨none, none, "p", [0, 1, 2], none⟩ none
    (by decide) (by decide) (by decide) (by decide)

theorem nullsOf_unique (j : Journal) (ps : List Nat) (nk : Nat)
    (h1 : ∀ x ∈ ps, isNullAt j x = true → x = nk)
    (h2 : isNullAt j nk = true)
    (hc : ps.count nk = 1) :
    nullsOf j ps = 1 := by
  unfold nullsOf
  have hfc : ps.filter (fun x => isNullAt j x) = ps.filter (fun x => x == nk) := by
    apply List.filter_congr
    intro x hx
    by_cases hxe : x = nk
    · subst hxe
      simp [h2]
    · have hnx : isNullAt j x = false := by
        cases hh : isNullAt j x
        · rfl
        · exact absurd (h1 x hx hh) hxe
      simp [hxe, hnx]
  rw [hfc]
  rw [← List.countP_eq_length_filter]
  simpa [List.count] using hc

theorem find?_null_unique (j : Journal) (nk : Nat) :
    ∀ ps : List Nat,
    (∀ x ∈ ps, isNullAt j x = true → x = nk) →
    isNullAt j nk = true →
    nk ∈ ps →
    ps.find? (fun x => isNullAt j x) = some nk := by
  intro ps
  induction ps with
  | nil => intro _ _ hm; cases hm
  | cons y rest ih =>
    intro h1 h2 hm
    by_cases hy : isNullAt j y = true
    · rw [List.find?_cons_of_pos _ (by simpa using hy)]
      rw [h1 y (by simp) hy]
    · rw [List.find?_cons_of_neg _ (by simpa using hy)]
      have hyne : y ≠ nk := fun he => hy (he ▸ h2)
      have hmr : nk ∈ rest := by
        rcases List.mem_cons.mp hm with h | h
        · exact absurd h.symm hyne
        · exact h
      exact ih (fun x hx => h1 x (by simp [hx])) h2 hmr

theorem listSum_update (j j2 : Journal) (nk : Nat) :
    ∀ ps : List Nat,
    ps.count nk = 1 →
    (∀ x ∈ ps, x ≠ nk → valAt j2 x = valAt j x) →
    listSum j2 ps = listSum j ps - valAt j nk + valAt j2 nk := by
  intro ps
  induction ps with
  | nil => intro hc _; simp at hc
  | cons y rest ih =>
    intro hc hsame
    by_cases hy : y = nk
    · subst hy
      have hc0 : rest.count y = 0 := by
        simp [List.count_cons] at hc
        omega
      have hnm : y ∉ rest := List.count_eq_zero.mp hc0
      have hr : listSum j2 rest = listSum j rest := by
        unfold listSum
        congr 1
        apply List.map_congr_left
        intro x hx
        exact hsame x (by simp [hx]) (fun he => hnm (he ▸ hx))
      simp only [listSum, List.map_cons, List.sum_cons] at *
      rw [hr]
      ring
    · have hcr : rest.count nk = 1 := by
        simp [List.count_cons, Ne.symm hy] at hc
        omega
      have hyv : valAt j2 y = valAt j y := hsame y (by simp) hy
      have := ih hcr (fun x hx hne => hsame x (by simp [hx]) hne)
      simp only [listSum, List.map_cons, List.sum_cons] at *
      rw [hyv, this]
      ring

/-- C1: for a transaction with exactly one elided posting (post `nk`, cited
once, the only cited post with an absent amount) and at least one explicit
posting, all explicit amounts sharing the one commodity index `ci`,
`finalize_indexed` resolves the elided posting to the inverse of the
accumulated total: the written amount negates the sum of the explicit
amounts, carries the same commodity index, and the full posting set then
sums to exactly zero. -/
theorem c1_finalize_indexed_elision (j : Journal) (xi : Nat) (xact : Xact) (nk : Nat)
    (ci : Option Nat)
    (hx : j.xacts.get? xi = some xact)
    (hvalid : ∀ pi ∈ xact.posts, (j.posts.get? pi).isSome = true)
    (hcount : xact.posts.count nk = 1)
    (hnk : isNullAt j nk = true)
    (honly : ∀ pi ∈ xact.posts, pi ≠ nk → isNullAt j pi = false)
    (hci : ∀ pi ∈ xact.posts, isNullAt j pi = false → amountCiAt j pi = some ci)
    (hexp : ∃ pi ∈ xact.posts, pi ≠ nk) :
    ∃ (p : Post) (b : Amount),
      j.posts.get? nk = some p ∧ p.amount = none ∧
      finalize_indexed xi j =
        .ok { j with posts := j.posts.set nk { p with amount := some b.inverse } } ∧
      b.commodity_index = ci ∧
      Decimal.val b.quantity = listSum j xact.posts ∧
      (Amount.inverse b).commodity_index = ci ∧
      Decimal.val (Amount.inverse b).quantity = -(listSum j xact.posts) ∧
      listSum { j with posts := j.posts.set nk { p with amount := some b.inverse } }
        xact.posts = 0 := by
  have h1 : ∀ x ∈ xact.posts, isNullAt j x = true → x = nk := by
    intro x hx2 hxn
    by_contra hne
    rw [honly x hx2 hne] at hxn
    cases hxn
  have hmem : nk ∈ xact.posts := by
    by_contra hnm
    rw [List.count_eq_zero.mpr hnm] at hcount
    cases hcount
  have hnulls1 : nullsOf j xact.posts = 1 := nullsOf_unique j xact.posts nk h1 hnk hcount
  have hfind : xact.posts.find? (fun x => isNullAt j x) = some nk :=
    find?_null_unique j nk xact.posts h1 hnk hmem
  obtain ⟨bal2, hloop, hval, hbci, hiff⟩ := balLoop_run j ci xact.posts none none hvalid hci
    (by intro b hb; cases hb) (by simp [hnulls1])
  have hex2 : ∃ pi ∈ xact.posts, isNullAt j pi = false := by
    obtain ⟨pi, hpm, hpne⟩ := hexp
    exact ⟨pi, hpm, honly pi hpm hpne⟩
  obtain ⟨b, hb⟩ := Option.isSome_iff_exists.mp (hiff.mpr (Or.inr hex2))
  subst hb
  -- the elided post itself
  have hpnk : ∃ p, j.posts.get? nk = some p ∧ p.amount = none := by
    unfold isNullAt at hnk
    cases hp : j.posts.get? nk with
    | none => rw [hp] at hnk; cases hnk
    | some p =>
      rw [hp] at hnk
      exact ⟨p, rfl, Option.isNone_iff_eq_none.mp hnk⟩
  obtain ⟨p, hp, hpa⟩ := hpnk
  have hp2 : j.posts[nk]? = some p := by
    rw [← List.get?_eq_getElem?]
    exact hp
  have hx2 : j.xacts[xi]? = some xact := by
    rw [← List.get?_eq_getElem?]
    exact hx
  have hfin : finalize_indexed xi j =
      .ok { j with posts := j.posts.set nk { p with amount := some b.inverse } } := by
    simp [finalize_indexed, hx, hx2, hloop, Option.or, hfind, hp, hp2]
  have hbval : Decimal.val b.quantity = listSum j xact.posts := by
    have := hval
    simp [balVal] at this
    exact this
  have hvnk : valAt j nk = 0 := by simp [valAt, hp, hp2, hpa]
  have hlt : nk < j.posts.length := (List.get?_eq_some.mp hp).1
  have hsame : ∀ x ∈ xact.posts, x ≠ nk →
      valAt { j with posts := j.posts.set nk { p with amount := some b.inverse } } x
        = valAt j x := by
    intro x _ hne
    unfold valAt
    rw [show ({ j with posts := j.posts.set nk { p with amount := some b.inverse } }
        : Journal).posts = j.posts.set nk { p with amount := some b.inverse } from rfl]
    rw [List.get?_eq_getElem?, List.get?_eq_getElem?, List.getElem?_set_ne (Ne.symm hne)]
  have hvnk2 : valAt { j with posts := j.posts.set nk { p with amount := some b.inverse } } nk
      = Decimal.val (Amount.inverse b).quantity := by
    unfold valAt
    rw [show ({ j with posts := j.posts.set nk { p with amount := some b.inverse } }
        : Journal).posts = j.posts.set nk { p with amount := some b.inverse } from rfl]
    rw [List.get?_eq_getElem?, List.getElem?_set_eq_of_lt _ hlt]
  refine ⟨p, b, hp, hpa, hfin, hbci b rfl, hbval, ?_, ?_, ?_⟩
  · rw [Amount.inverse_commodity]
    exact hbci b rfl
  · rw [Amount.inverse_val, hbval]
  · rw [listSum_update j _ nk xact.posts hcount hsame, hvnk, hvnk2,
      Amount.inverse_val, hbval]
    ring

/-- C1 witness: the concrete two-posting transaction `Expenses 20 EUR /
Assets (elided)`. -/
theorem c1_finalize_indexed_elision_witness :
    ∃ (p : Post) (b : Amount),
      ([⟨0, 0, some ⟨⟨20, 0⟩, some 0⟩, none⟩, ⟨0, 0, none, none⟩] : List Post).get? 1
          = some p ∧
      p.amount = none ∧
      finalize_indexed 0
        ⟨[⟨none, none, "p", [0, 1], none⟩],
          [⟨0, 0, some ⟨⟨20, 0⟩, some 0⟩, none⟩, ⟨0, 0, none, none⟩], [], []⟩ =
        .ok ⟨[⟨none, none, "p", [0, 1], none⟩],
          ([⟨0, 0, some ⟨⟨20, 0⟩, some 0⟩, none⟩, ⟨0, 0, none, none⟩] : List Post).set 1
            { p with amount := some b.inverse }, [], []⟩ ∧
      b.commodity_index = some 0 ∧
      Decimal.val b.quantity =
        listSum ⟨[⟨none, none, "p", [0, 1], none⟩],
          [⟨0, 0, some ⟨⟨20, 0⟩, some 0⟩, none⟩, ⟨0, 0, none, none⟩], [], []⟩ [0, 1] ∧
      (Amount.inverse b).commodity_index = some 0 ∧
      Decimal.val (Amount.inverse b).quantity =
        -(listSum ⟨[⟨none, none, "p", [0, 1], none⟩],
          [⟨0, 0, some ⟨⟨20, 0⟩, some 0⟩, none⟩, ⟨0, 0, none, none⟩], [], []⟩ [0, 1]) ∧
      listSum ⟨[⟨none, none, "p", [0, 1], none⟩],
          ([⟨0, 0, some ⟨⟨20, 0⟩, some 0⟩, none⟩, ⟨0, 0, none, none⟩] : List Post).set 1
            { p with amount := some b.inverse }, [], []⟩ [0, 1] = 0 :=
  c1_finalize_indexed_elision
    ⟨[⟨none, none, "p", [0, 1], none⟩],
      [⟨0, 0, some ⟨⟨20, 0⟩, some 0⟩, none⟩, ⟨0, 0, none, none⟩], [], []⟩
    0 ⟨none, none, "p", [0, 1], none⟩ 1 (some 0)
    (by decide) (by decide) (by decide) (by decide) (by decide) (by decide)
    ⟨0, by decide, by decide⟩

/-- C8: a successful `finalize_indexed` call mutates at most one Post's
amount in place and changes nothing else — xacts, accounts and commodities
are untouched, the post arena keeps its length (no reorder, no removal),
every post other than the resolved one is unchanged, and the one changed
post differs only in its `amount` field. -/
theorem c8_finalize_indexed_frame (xi : Nat) (j j2 : Journal)
    (h : finalize_indexed xi j = .ok j2) :
    j2.xacts = j.xacts ∧ j2.accounts = j.accounts ∧ j2.commodities = j.commodities ∧
    j2.posts.length = j.posts.length ∧
    ∃ k : Option Nat,
      (∀ m : Nat, some m ≠ k → j2.posts.get? m = j.posts.get? m) ∧
      (∀ m : Nat, some m = k → ∃ (p : Post) (a : Amount), j.posts.get? m = some p ∧
          j2.posts.get? m = some { p with amount := some a }) := by
  unfold finalize_indexed at h
  split at h
  · exact absurd h (by simp)
  · split at h
    · exact absurd h (by simp)
    · split at h
      · simp only [Except.ok.injEq] at h
        subst h
        exact ⟨rfl, rfl, rfl, rfl, none, fun m _ => rfl, fun m hm => by simp at hm⟩
      · rename_i r pi hpi
        split at h
        · exact absurd h (by simp)
        · rename_i post hpost
          split at h
          · exact absurd h (by simp)
          · rename_i b hb
            simp only [Except.ok.injEq] at h
            subst h
            refine ⟨rfl, rfl, rfl, by simp, some pi, ?_, ?_⟩
            · intro m hm
              have hne : m ≠ pi := fun he => hm (by rw [he])
              show (j.posts.set pi { post with amount := some b.inverse }).get? m
                  = j.posts.get? m
              rw [List.get?_eq_getElem?, List.get?_eq_getElem?,
                List.getElem?_set_ne (Ne.symm hne)]
            · intro m hm
              have hmp : m = pi := by
                simpa using hm
              subst hmp
              refine ⟨post, b.inverse, hpost, ?_⟩
              have hlt : m < j.posts.length := (List.get?_eq_some.mp hpost).1
              show (j.posts.set m { post with amount := some b.inverse }).get? m
                  = some { post with amount := some b.inverse }
              rw [List.get?_eq_getElem?, List.getElem?_set_eq_of_lt _ hlt]

/-- C8 witness: the frame property at the concrete two-posting
transaction. -/
theorem c8_finalize_indexed_frame_witness :
    (⟨[⟨none, none, "p", [0, 1], none⟩],
        [⟨0, 0, some ⟨⟨20, 0⟩, some 0⟩, none⟩, ⟨0, 0, some ⟨⟨-20, 0⟩, some 0⟩, none⟩],
        [], []⟩ : Journal).xacts
      = (⟨[⟨none, none, "p", [0, 1], none⟩],
        [⟨0, 0, some ⟨⟨20, 0⟩, some 0⟩, none⟩, ⟨0, 0, none, none⟩], [], []⟩ : Journal).xacts ∧
    (⟨[⟨none, none, "p", [0, 1], none⟩],
        [⟨0, 0, some ⟨⟨20, 0⟩, some 0⟩, none⟩, ⟨0, 0, some ⟨⟨-20, 0⟩, some 0⟩, none⟩],
        [], []⟩ : Journal).accounts
      = (⟨[⟨none, none, "p", [0, 1], none⟩],
        [⟨0, 0, some ⟨⟨20, 0⟩, some 0⟩, none⟩, ⟨0, 0, none, none⟩], [], []⟩ : Journal).accounts ∧
    (⟨[⟨none, none, "p", [0, 1], none⟩],
        [⟨0, 0, some ⟨⟨20, 0⟩, some 0⟩, none⟩, ⟨0, 0, some ⟨⟨-20, 0⟩, some 0⟩, none⟩],
        [], []⟩ : Journal).commodities
      = (⟨[⟨none, none, "p", [0, 1], none⟩],
        [⟨0, 0, some ⟨⟨20, 0⟩, some 0⟩, none⟩, ⟨0, 0, none, none⟩], [], []⟩ : Journal).commodities ∧
    (⟨[⟨none, none, "p", [0, 1], none⟩],
        [⟨0, 0, some ⟨⟨20, 0⟩, some 0⟩, none⟩, ⟨0, 0, some ⟨⟨-20, 0⟩, some 0⟩, none⟩],
        [], []⟩ : Journal).posts.length
      = (⟨[⟨none, none, "p", [0, 1], none⟩],
        [⟨0, 0, some ⟨⟨20, 0⟩, some 0⟩, none⟩, ⟨0, 0, none, none⟩], [], []⟩ : Journal).posts.length ∧
    ∃ k : Option Nat,
      (∀ m : Nat, some m ≠ k →
        (⟨[⟨none, none, "p", [0, 1], none⟩],
          [⟨0, 0, some ⟨⟨20, 0⟩, some 0⟩, none⟩, ⟨0, 0, some ⟨⟨-20, 0⟩, some 0⟩, none⟩],
          [], []⟩ : Journal).posts.get? m
          = (⟨[⟨none, none, "p", [0, 1], none⟩],
            [⟨0, 0, some ⟨⟨20, 0⟩, some 0⟩, none⟩, ⟨0, 0, none, none⟩],
            [], []⟩ : Journal).posts.get? m) ∧
      (∀ m : Nat, some m = k → ∃ (p : Post) (a : Amount),
        (⟨[⟨none, none, "p", [0, 1], none⟩],
          [⟨0, 0, some ⟨⟨20, 0⟩, some 0⟩, none⟩, ⟨0, 0, none, none⟩],
          [], []⟩ : Journal).posts.get? m = some p ∧
        (⟨[⟨none, none, "p", [0, 1], none⟩],
          [⟨0, 0, some ⟨⟨20, 0⟩, some 0⟩, none⟩, ⟨0, 0, some ⟨⟨-20, 0⟩, some 0⟩, none⟩],
          [], []⟩ : Journal).posts.get? m = some { p with amount := some a }) :=
  c8_finalize_indexed_frame 0
    ⟨[⟨none, none, "p", [0, 1], none⟩],
      [⟨0, 0, some ⟨⟨20, 0⟩, some 0⟩, none⟩, ⟨0, 0, none, none⟩], [], []⟩
    ⟨[⟨none, none, "p", [0, 1], none⟩],
      [⟨0, 0, some ⟨⟨20, 0⟩, some 0⟩, none⟩, ⟨0, 0, some ⟨⟨-20, 0⟩, some 0⟩, none⟩],
      [], []⟩
    (by rfl)

theorem Amount.is_null_zero (a : Amount) (h : a.is_null = true) :
    a.quantity.is_zero = true := by
  unfold Amount.is_null at h
  by_cases hz : a.quantity.is_zero = true
  · exact hz
  · rw [if_neg hz] at h
    cases h

theorem finalizeBal_none_amount :
    ∀ (posts : List Post) (bal : Option Amount) (np : Option Nat) (i0 : Nat),
    (∃ p ∈ posts, p.amount = none) →
    finalizeBal posts bal np i0 = none := by
  intro posts
  induction posts with
  | nil =>
    intro bal np i0 h
    obtain ⟨p, hm, _⟩ := h
    cases hm
  | cons q rest ih =>
    intro bal np i0 h
    obtain ⟨p, hm, hpa⟩ := h
    cases ha : q.amount with
    | none => simp [finalizeBal, ha]
    | some a =>
      have hpr : p ∈ rest := by
        rcases List.mem_cons.mp hm with he | he
        · subst he
          rw [ha] at hpa
          cases hpa
        · exact he
      by_cases hnl : a.is_null = false
      · cases bal with
        | none =>
          rw [show finalizeBal (q :: rest) none np i0
              = finalizeBal rest (some (Amount.copy_from a)) np (i0 + 1) by
            simp [finalizeBal, ha, hnl]]
          exact ih _ _ _ ⟨p, hpr, hpa⟩
        | some b =>
          cases hadd : b.add a with
          | none => simp [finalizeBal, ha, hnl, hadd]
          | some r =>
            rw [show finalizeBal (q :: rest) (some b) np i0
                = finalizeBal rest (some r) np (i0 + 1) by
              simp [finalizeBal, ha, hnl, hadd]]
            exact ih _ _ _ ⟨p, hpr, hpa⟩
      · have hnl2 : a.is_null = true := by simpa using hnl
        cases np with
        | some x => simp [finalizeBal, ha, hnl2]
        | none =>
          rw [show finalizeBal (q :: rest) bal none i0
              = finalizeBal rest bal (some i0) (i0 + 1) by
            simp [finalizeBal, ha, hnl2]]
          exact ih _ _ _ ⟨p, hpr, hpa⟩

theorem finalizeBal_double_null :
    ∀ (posts : List Post) (bal : Option Amount) (np : Option Nat) (i0 : Nat),
    (∀ p ∈ posts, p.amount.isSome = true) →
    2 ≤ (posts.filter isNullPost).length + (if np.isSome then 1 else 0) →
    finalizeBal posts bal np i0 = none := by
  intro posts
  induction posts with
  | nil =>
    intro bal np i0 _ hn
    exfalso
    cases np <;> simp at hn
  | cons q rest ih =>
    intro bal np i0 hv hn
    obtain ⟨a, ha⟩ := Option.isSome_iff_exists.mp (hv q (by simp))
    have hvr : ∀ p ∈ rest, p.amount.isSome = true := fun p hp => hv p (by simp [hp])
    by_cases hnl : a.is_null = false
    · have hq : isNullPost q = false := by simp [isNullPost, ha, hnl]
      have hfl : (q :: rest).filter isNullPost = rest.filter isNullPost := by
        simp [List.filter_cons, hq]
      rw [hfl] at hn
      cases bal with
      | none =>
        rw [show finalizeBal (q :: rest) none np i0
            = finalizeBal rest (some (Amount.copy_from a)) np (i0 + 1) by
          simp [finalizeBal, ha, hnl]]
        exact ih _ _ _ hvr hn
      | some b =>
        cases hadd : b.add a with
        | none => simp [finalizeBal, ha, hnl, hadd]
        | some r =>
          rw [show finalizeBal (q :: rest) (some b) np i0
              = finalizeBal rest (some r) np (i0 + 1) by
            simp [finalizeBal, ha, hnl, hadd]]
          exact ih _ _ _ hvr hn
    · have hnl2 : a.is_null = true := by simpa using hnl
      have hq : isNullPost q = true := by simp [isNullPost, ha, hnl2]
      have hfl : ((q :: rest).filter isNullPost).length
          = (rest.filter isNullPost).length + 1 := by
        simp [List.filter_cons, hq]
      rw [hfl] at hn
      cases np with
      | some x => simp [finalizeBal, ha, hnl2]
      | none =>
        rw [show finalizeBal (q :: rest) bal none i0
            = finalizeBal rest bal (some i0) (i0 + 1) by
          simp [finalizeBal, ha, hnl2]]
        apply ih _ _ _ hvr
        simp at hn ⊢
        omega

theorem finalizeBal_run (ci : Option Nat) :
    ∀ (posts : List Post) (bal : Option Amount) (np : Option Nat) (i0 : Nat),
    (∀ p ∈ posts, p.amount.isSome = true) →
    (∀ p ∈ posts, ∀ a, p.amount = some a → a.is_null = false → a.commodity_index = ci) →
    (∀ b, bal = some b → b.commodity_index = ci) →
    (posts.filter isNullPost).length + (if np.isSome then 1 else 0) ≤ 1 →
    ∃ bal2,
      finalizeBal posts bal np i0 = some (bal2, np.or (nullIdx posts i0)) ∧
      balVal bal2 = balVal bal + postsSum posts ∧
      (∀ b, bal2 = some b → b.commodity_index = ci) ∧
      (bal2.isSome = true ↔ (bal.isSome = true ∨ ∃ p ∈ posts, isNullPost p = false)) := by
  intro posts
  induction posts with
  | nil =>
    intro bal np i0 _ _ hbal _
    refine ⟨bal, ?_, by simp [postsSum], hbal, by simp⟩
    cases np <;> simp [finalizeBal, nullIdx, Option.or]
  | cons q rest ih =>
    intro bal np i0 hv hci hbal hn
    obtain ⟨a, ha⟩ := Option.isSome_iff_exists.mp (hv q (by simp))
    have hvr : ∀ p ∈ rest, p.amount.isSome = true := fun p hp => hv p (by simp [hp])
    have hcir : ∀ p ∈ rest, ∀ a2, p.amount = some a2 → a2.is_null = false →
        a2.commodity_index = ci := fun p hp => hci p (by simp [hp])
    have hqv : postVal q = a.quantity.val := by simp [postVal, ha]
    have hsum : postsSum (q :: rest) = a.quantity.val + postsSum rest := by
      simp [postsSum, hqv]
    by_cases hnl : a.is_null = false
    · have hq : isNullPost q = false := by simp [isNullPost, ha, hnl]
      have hciA : a.commodity_index = ci := hci q (by simp) a ha hnl
      have hfl : (q :: rest).filter isNullPost = rest.filter isNullPost := by
        simp [List.filter_cons, hq]
      rw [hfl] at hn
      have hni : nullIdx (q :: rest) i0 = nullIdx rest (i0 + 1) := by
        simp [nullIdx, hq]
      cases bal with
      | none =>
        have step : finalizeBal (q :: rest) none np i0
            = finalizeBal rest (some (Amount.copy_from a)) np (i0 + 1) := by
          simp [finalizeBal, ha, hnl]
        obtain ⟨bal2, h1, h2, h3, h4⟩ := ih (some (Amount.copy_from a)) np (i0 + 1) hvr hcir
          (fun b hb => by cases hb; exact hciA) hn
        refine ⟨bal2, by rw [step, h1, hni], ?_, h3, ?_⟩
        · rw [h2, hsum]
          simp [balVal, Amount.copy_from]
        · constructor
          · intro _
            exact Or.inr ⟨q, by simp, hq⟩
          · intro _
            exact h4.mpr (Or.inl rfl)
      | some b =>
        have hbci : b.commodity_index = a.commodity_index := by
          rw [hbal b rfl, hciA]
        obtain ⟨r, hradd, hrci, hrval⟩ := Amount.add_spec b a hbci
        have step : finalizeBal (q :: rest) (some b) np i0
            = finalizeBal rest (some r) np (i0 + 1) := by
          simp [finalizeBal, ha, hnl, hradd]
        obtain ⟨bal2, h1, h2, h3, h4⟩ := ih (some r) np (i0 + 1) hvr hcir
          (fun x hx => by cases hx; rw [hrci]; exact hbal b rfl) hn
        refine ⟨bal2, by rw [step, h1, hni], ?_, h3, ?_⟩
        · rw [h2, hsum]
          simp only [balVal, hrval]
          ring
        · constructor
          · intro _
            exact Or.inl rfl
          · intro _
            exact h4.mpr (Or.inl rfl)
    · have hnl2 : a.is_null = true := by simpa using hnl
      have hq : isNullPost q = true := by simp [isNullPost, ha, hnl2]
      have hqv0 : postVal q = 0 := by
        rw [hqv]
        exact Decimal.val_of_is_zero _ (Amount.is_null_zero a hnl2)
      have hsum0 : postsSum (q :: rest) = postsSum rest := by
        simp [postsSum, hqv0]
      have hfl : ((q :: rest).filter isNullPost).length
          = (rest.filter isNullPost).length + 1 := by
        simp [List.filter_cons, hq]
      rw [hfl] at hn
      have hni : nullIdx (q :: rest) i0 = some i0 := by
        simp [nullIdx, hq]
      cases np with
      | some x =>
        exfalso
        simp at hn
      | none =>
        have step : finalizeBal (q :: rest) bal none i0
            = finalizeBal rest bal (some i0) (i0 + 1) := by
          simp [finalizeBal, ha, hnl2]
        obtain ⟨bal2, h1, h2, h3, h4⟩ := ih bal (some i0) (i0 + 1) hvr hcir hbal
          (by
            rw [show (if (none : Option Nat).isSome = true then 1 else 0) = 0 from rfl] at hn
            rw [show (if (some i0).isSome = true then 1 else 0) = 1 from rfl]
            omega)
        refine ⟨bal2, ?_, by rw [h2, hsum0], h3, ?_⟩
        · rw [step, h1, hni]
          simp [Option.or]
        · rw [h4]
          constructor
          · rintro (hb | ⟨x, hx, hxn⟩)
            · exact Or.inl hb
            · exact Or.inr ⟨x, by simp [hx], hxn⟩
          · rintro (hb | ⟨x, hx, hxn⟩)
            · exact Or.inl hb
            · rcases List.mem_cons.mp hx with h | h
              · subst h
                rw [hq] at hxn
                cases hxn
              · exact Or.inr ⟨x, h, hxn⟩

theorem nullIdx_unique :
    ∀ (posts : List Post) (i0 i : Nat) (p : Post),
    posts.get? i = some p → isNullPost p = true →
    (∀ (k : Nat) (q : Post), posts.get? k = some q → k ≠ i → isNullPost q = false) →
    nullIdx posts i0 = some (i0 + i) := by
  intro posts
  induction posts with
  | nil =>
    intro i0 i p hg
    simp at hg
  | cons q rest ih =>
    intro i0 i p hg hnp hu
    cases i with
    | zero =>
      simp only [List.get?_cons_zero, Option.some.injEq] at hg
      subst hg
      simp [nullIdx, hnp]
    | succ i2 =>
      have hq : isNullPost q = false := hu 0 q rfl (by omega)
      have step : nullIdx (q :: rest) i0 = nullIdx rest (i0 + 1) := by
        simp [nullIdx, hq]
      rw [step, ih (i0 + 1) i2 p (by simpa using hg) hnp
        (fun k q2 hk hne => hu (k + 1) q2 (by simpa using hk) (by omega))]
      congr 1
      omega

theorem filter_null_unique :
    ∀ (posts : List Post) (i : Nat) (p : Post),
    posts.get? i = some p → isNullPost p = true →
    (∀ (k : Nat) (q : Post), posts.get? k = some q → k ≠ i → isNullPost q = false) →
    (posts.filter isNullPost).length = 1 := by
  intro posts
  induction posts with
  | nil =>
    intro i p hg
    simp at hg
  | cons q rest ih =>
    intro i p hg hnp hu
    cases i with
    | zero =>
      simp only [List.get?_cons_zero, Option.some.injEq] at hg
      subst hg
      have hrest : rest.filter isNullPost = [] := by
        rw [List.filter_eq_nil_iff]
        intro x hx
        obtain ⟨k, hk⟩ := List.get?_of_mem hx
        have := hu (k + 1) x (by simpa using hk) (by omega)
        simp [this]
      simp [List.filter_cons, hnp, hrest]
    | succ i2 =>
      have hq : isNullPost q = false := hu 0 q rfl (by omega)
      rw [show (q :: rest).filter isNullPost = rest.filter isNullPost by
        simp [List.filter_cons, hq]]
      exact ih i2 p (by simpa using hg) hnp
        (fun k q2 hk hne => hu (k + 1) q2 (by simpa using hk) (by omega))

/-- C10 (counterexample): with two explicitly written null amounts (both
`amount` fields present, so no unwrap panics) the claim says the first
null posting is elected and overwritten; the code instead hits the
`todo!()` and panics. -/
theorem c10_two_null_posts_panic :
    (([⟨0, 0, some Amount.null, none⟩, ⟨0, 0, some Amount.null, none⟩] : List Post).all
      (fun p => p.amount.isSome)) = true ∧
    finalize ⟨none, none, "p", [], none⟩
      [⟨0, 0, some Amount.null, none⟩, ⟨0, 0, some Amount.null, none⟩]
      Journal.new = none := by
  exact ⟨by decide, by decide⟩

/-- C10 (amended): in the list-based `finalize` every posting's amount is
unwrapped, so any `None` amount panics; the elision criterion is the
present-but-null amount (zero quantity, absent commodity), not absence;
when exactly one posting carries the null amount and at least one other
posting carries a non-null amount (all non-null amounts sharing one
commodity index), that unique null posting — the first and only one — is
overwritten with the inverse of the accumulated total before linking; a
second null posting panics instead of electing the first. -/
theorem c10_finalize_list :
    (∀ (xact : Xact) (posts : List Post) (j : Journal),
        (∃ p ∈ posts, p.amount = none) → finalize xact posts j = none) ∧
    (∀ (xact : Xact) (posts : List Post) (j : Journal),
        2 ≤ (posts.filter isNullPost).length → finalize xact posts j = none) ∧
    (∀ (xact : Xact) (posts : List Post) (j : Journal) (i : Nat) (p : Post) (ci : Option Nat),
        posts.get? i = some p → isNullPost p = true →
        (∀ (k : Nat) (q : Post), posts.get? k = some q → k ≠ i → isNullPost q = false) →
        (∀ q ∈ posts, q.amount.isSome = true) →
        (∀ q ∈ posts, ∀ a, q.amount = some a → a.is_null = false → a.commodity_index = ci) →
        (∃ q ∈ posts, isNullPost q = false) →
        ∃ b : Amount,
          finalize xact posts j =
            some (finalizeLink xact (posts.set i { p with amount := some b.inverse }) j) ∧
          Decimal.val b.quantity = postsSum posts ∧
          b.commodity_index = ci ∧
          Decimal.val (Amount.inverse b).quantity = -(postsSum posts)) := by
  refine ⟨?_, ?_, ?_⟩
  · intro xact posts j h
    unfold finalize
    rw [finalizeBal_none_amount posts none none 0 h]
  · intro xact posts j h2
    unfold finalize
    by_cases hv : ∀ p ∈ posts, p.amount.isSome = true
    · rw [finalizeBal_double_null posts none none 0 hv (by simpa using h2)]
    · push_neg at hv
      obtain ⟨p, hm, hp⟩ := hv
      rw [finalizeBal_none_amount posts none none 0
        ⟨p, hm, Option.not_isSome_iff_eq_none.mp (by simpa using hp)⟩]
  · intro xact posts j i p ci hg hnp hu hv hci hexp
    have hfl : (posts.filter isNullPost).length = 1 := filter_null_unique posts i p hg hnp hu
    obtain ⟨bal2, hrun, hval, hbci, hiff⟩ := finalizeBal_run ci posts none none 0 hv hci
      (by intro b hb; cases hb) (by simp [hfl])
    obtain ⟨b, hb⟩ := Option.isSome_iff_exists.mp (hiff.mpr (Or.inr hexp))
    subst hb
    have hni : nullIdx posts 0 = some i := by
      have := nullIdx_unique posts 0 i p hg hnp hu
      simpa using this
    have hbval : Decimal.val b.quantity = postsSum posts := by
      simpa [balVal] using hval
    have hg2 : posts[i]? = some p := by
      rw [← List.get?_eq_getElem?]
      exact hg
    refine ⟨b, ?_, hbval, hbci b rfl, ?_⟩
    · unfold finalize
      rw [hrun]
      simp [Option.or, hni, hg, hg2]
    · rw [Amount.inverse_val, hbval]

/-- C10 witness: one explicit posting of 20 and one explicitly written null
amount; the null posting is overwritten with the inverse total. -/
theorem c10_finalize_list_witness :
    ∃ b : Amount,
      finalize ⟨none, none, "p", [], none⟩
          [⟨0, 0, some ⟨⟨20, 0⟩, none⟩, none⟩, ⟨0, 0, some Amount.null, none⟩]
          Journal.new =
        some (finalizeLink ⟨none, none, "p", [], none⟩
          (([⟨0, 0, some ⟨⟨20, 0⟩, none⟩, none⟩, ⟨0, 0, some Amount.null, none⟩] : List Post).set 1
            { (⟨0, 0, some Amount.null, none⟩ : Post) with amount := some b.inverse })
          Journal.new) ∧
      Decimal.val b.quantity =
        postsSum [⟨0, 0, some ⟨⟨20, 0⟩, none⟩, none⟩, ⟨0, 0, some Amount.null, none⟩] ∧
      b.commodity_index = none ∧
      Decimal.val (Amount.inverse b).quantity =
        -(postsSum [⟨0, 0, some ⟨⟨20, 0⟩, none⟩, none⟩, ⟨0, 0, some Amount.null, none⟩]) :=
  c10_finalize_list.2.2 ⟨none, none, "p", [], none⟩
    [⟨0, 0, some ⟨⟨20, 0⟩, none⟩, none⟩, ⟨0, 0, some Amount.null, none⟩]
    Journal.new 1 ⟨0, 0, some Amount.null, none⟩ none
    (by decide) (by decide)
    (by
      intro k q hk hne
      match k, hk with
      | 0, hk => simp at hk; rw [← hk]; decide
      | 1, hk => exact absurd rfl hne
      | (n + 2), hk => simp at hk)
    (by decide) (by decide)
    ⟨⟨0, 0, some ⟨⟨20, 0⟩, none⟩, none⟩, by decide, by decide⟩

theorem Option.map_add_isSome (fr : Option Nat) :
    (fr.map (· + 1)).isSome = fr.isSome := by
  cases fr <;> rfl

theorem decScan_isSome :
    ∀ (cs : List Char) (m : Nat) (fr : Option Nat) (seen : Bool),
    (decScan cs m fr seen).isSome = true ↔
      (cs.all (fun c => c.isDigit || c == '.') = true ∧
       cs.count '.' + (if fr.isSome then 1 else 0) ≤ 1 ∧
       (seen = true ∨ cs.any (·.isDigit) = true)) := by
  intro cs
  induction cs with
  | nil =>
    intro m fr seen
    cases seen <;> cases fr <;> simp [decScan]
  | cons c rest ih =>
    intro m fr seen
    by_cases hdot : c = '.'
    · subst hdot
      cases fr with
      | some k =>
        simp only [decScan]
        constructor
        · intro h
          simp at h
        · rintro ⟨h1, h2, h3⟩
          exfalso
          rw [List.count_cons] at h2
          simp at h2
      | none =>
        rw [show decScan ('.' :: rest) m none seen = decScan rest m (some 0) seen from by
          simp [decScan]]
        rw [ih]
        have hcnt : ('.' :: rest).count '.' = rest.count '.' + 1 := by
          rw [List.count_cons]
          simp
        constructor
        · rintro ⟨h1, h2, h3⟩
          refine ⟨by simpa using h1, ?_, ?_⟩
          · rw [hcnt]
            simp at h2 ⊢
            omega
          · rcases h3 with h | h
            · exact Or.inl h
            · exact Or.inr (by simp [List.any_cons, h])
        · rintro ⟨h1, h2, h3⟩
          refine ⟨by simpa using h1, ?_, ?_⟩
          · rw [hcnt] at h2
            simp at h2 ⊢
            omega
          · rcases h3 with h | h
            · exact Or.inl h
            · simp only [List.any_cons] at h
              rcases Bool.or_eq_true_iff.mp h with h | h
              · simp at h
              · exact Or.inr h
    · by_cases hdig : c.isDigit = true
      · rw [show decScan (c :: rest) m fr seen
            = decScan rest (m * 10 + (c.toNat - 48)) (fr.map (· + 1)) true from by
          simp only [decScan]
          rw [if_neg hdot, if_pos hdig]]
        rw [ih]
        have hcnt : (c :: rest).count '.' = rest.count '.' := by
          rw [List.count_cons,
            show (c == '.') = false from beq_eq_false_iff_ne.mpr hdot]
          simp
        constructor
        · rintro ⟨h1, h2, h3⟩
          refine ⟨by simp [List.all_cons, hdig, h1], ?_, Or.inr (by simp [List.any_cons, hdig])⟩
          rw [hcnt]
          rw [Option.map_add_isSome] at h2
          exact h2
        · rintro ⟨h1, h2, h3⟩
          rw [List.all_cons] at h1
          refine ⟨(Bool.and_eq_true_iff.mp h1).2, ?_, Or.inl rfl⟩
          rw [hcnt] at h2
          rw [Option.map_add_isSome]
          exact h2
      · have hstep : decScan (c :: rest) m fr seen = none := by
          simp [decScan, hdot, hdig]
        rw [hstep]
        constructor
        · intro h
          simp at h
        · rintro ⟨h1, h2, h3⟩
          exfalso
          simp [List.all_cons, hdig, hdot] at h1

theorem decScan_mantissa :
    ∀ (cs : List Char) (m : Nat) (fr : Option Nat) (seen : Bool) (m2 f2 : Nat),
    decScan cs m fr seen = some (m2, f2) →
    m2 = (cs.filter (·.isDigit)).foldl (fun a c => a * 10 + (c.toNat - 48)) m := by
  intro cs
  induction cs with
  | nil =>
    intro m fr seen m2 f2 h
    cases seen with
    | false => simp [decScan] at h
    | true =>
      simp only [decScan, if_pos, Option.some.injEq, Prod.mk.injEq] at h
      simp [← h.1]
  | cons c rest ih =>
    intro m fr seen m2 f2 h
    by_cases hdot : c = '.'
    · subst hdot
      cases fr with
      | some k => simp [decScan] at h
      | none =>
        rw [show decScan ('.' :: rest) m none seen = decScan rest m (some 0) seen from by
          simp [decScan]] at h
        rw [ih _ _ _ _ _ h]
        simp [List.filter_cons]
    · by_cases hdig : c.isDigit = true
      · rw [show decScan (c :: rest) m fr seen
            = decScan rest (m * 10 + (c.toNat - 48)) (fr.map (· + 1)) true from by
          simp only [decScan]
          rw [if_neg hdot, if_pos hdig]] at h
        rw [ih _ _ _ _ _ h]
        simp [List.filter_cons, hdig]
      · rw [show decScan (c :: rest) m fr seen = none from by
          simp [decScan, hdot, hdig]] at h
        cases h

theorem decScan_scale :
    ∀ (cs : List Char) (m : Nat) (fr : Option Nat) (seen : Bool) (m2 f2 : Nat),
    decScan cs m fr seen = some (m2, f2) →
    f2 = (match fr with
          | some k => k + (cs.filter (·.isDigit)).length
          | none => (((cs.dropWhile (· ≠ '.')).drop 1).filter (·.isDigit)).length) := by
  intro cs
  induction cs with
  | nil =>
    intro m fr seen m2 f2 h
    cases seen with
    | false => simp [decScan] at h
    | true =>
      simp only [decScan, if_pos, Option.some.injEq, Prod.mk.injEq] at h
      cases fr with
      | some k => simp [← h.2]
      | none => simp [← h.2]
  | cons c rest ih =>
    intro m fr seen m2 f2 h
    by_cases hdot : c = '.'
    · subst hdot
      cases fr with
      | some k => simp [decScan] at h
      | none =>
        rw [show decScan ('.' :: rest) m none seen = decScan rest m (some 0) seen from by
          simp [decScan]] at h
        have := ih _ _ _ _ _ h
        simp only at this
        rw [this]
        simp [List.dropWhile]
    · by_cases hdig : c.isDigit = true
      · rw [show decScan (c :: rest) m fr seen
            = decScan rest (m * 10 + (c.toNat - 48)) (fr.map (· + 1)) true from by
          simp only [decScan]
          rw [if_neg hdot, if_pos hdig]] at h
        have := ih _ _ _ _ _ h
        cases fr with
        | some k =>
          simp only [Option.map_some'] at this
          rw [this]
          simp [List.filter_cons, hdig]
          omega
        | none =>
          simp only [Option.map_none'] at this
          rw [this]
          simp [List.dropWhile, hdot]
      · rw [show decScan (c :: rest) m fr seen = none from by
          simp [decScan, hdot, hdig]] at h
        cases h

theorem no_dot_all_digit :
    ∀ cs : List Char, cs.all (fun c => c.isDigit || c == '.') = true →
    cs.count '.' = 0 → cs.all (·.isDigit) = true := by
  intro cs
  induction cs with
  | nil => intro _ _; rfl
  | cons c rest ih =>
    intro hall hcnt
    rw [List.all_cons] at hall ⊢
    obtain ⟨h1, h2⟩ := Bool.and_eq_true_iff.mp hall
    rw [List.count_cons] at hcnt
    have hne : (c == '.') = false := by
      cases hbe : (c == '.')
      · rfl
      · rw [hbe] at hcnt
        simp at hcnt
    have hdig : c.isDigit = true := by
      rcases Bool.or_eq_true_iff.mp h1 with h | h
      · exact h
      · rw [h] at hne
        cases hne
    rw [hdig, ih h2 (by rw [hne] at hcnt; simpa using hcnt)]
    rfl

theorem filter_digits_decomp :
    ∀ cs : List Char, cs.all (fun c => c.isDigit || c == '.') = true →
    cs.count '.' ≤ 1 →
    cs.filter (·.isDigit)
      = cs.takeWhile (· ≠ '.') ++ ((cs.dropWhile (· ≠ '.')).drop 1) ∧
    ((cs.dropWhile (· ≠ '.')).drop 1).all (·.isDigit) = true := by
  intro cs
  induction cs with
  | nil => intro _ _; exact ⟨rfl, rfl⟩
  | cons c rest ih =>
    intro hall hcnt
    rw [List.all_cons] at hall
    obtain ⟨h1, h2⟩ := Bool.and_eq_true_iff.mp hall
    by_cases hdot : c = '.'
    · subst hdot
      have hc0 : rest.count '.' = 0 := by
        rw [List.count_cons] at hcnt
        simp at hcnt
        omega
      have hrd : rest.all (·.isDigit) = true := no_dot_all_digit rest h2 hc0
      have hfr : rest.filter (·.isDigit) = rest := by
        rw [List.filter_eq_self]
        intro a ha
        exact (List.all_eq_true.mp hrd) a ha
      constructor
      · rw [List.filter_cons]
        simp only [List.takeWhile, List.dropWhile]
        simp [hfr]
      · simp only [List.dropWhile]
        simp [hrd]
    · have hdig : c.isDigit = true := by
        rcases Bool.or_eq_true_iff.mp h1 with h | h
        · exact h
        · rw [beq_iff_eq] at h
          exact absurd h hdot
      have hcr : rest.count '.' ≤ 1 := by
        rw [List.count_cons] at hcnt
        omega
      obtain ⟨e1, e2⟩ := ih h2 hcr
      constructor
      · rw [List.filter_cons]
        simp only [hdig, if_pos]
        rw [e1]
        simp only [List.takeWhile, List.dropWhile]
        simp [hdot]
      · simp only [List.dropWhile]
        simp only [show (decide (¬c = '.')) = true by simp [hdot]]
        exact e2

theorem litChars_iff (cs0 : List Char) :
    litChars cs0 = true ↔
      ((stripSign cs0).any (·.isDigit) = true ∧
       (stripSign cs0).all (fun c => c.isDigit || c == '.') = true ∧
       (stripSign cs0).count '.' ≤ 1) := by
  unfold litChars
  simp only [Bool.and_eq_true, decide_eq_true_eq, and_assoc]

theorem stripSign_minus (rest : List Char) : stripSign ('-' :: rest) = rest := by
  simp [stripSign]

theorem stripSign_plus (rest : List Char) : stripSign ('+' :: rest) = rest := by
  simp [stripSign]

theorem stripSign_other (c : Char) (rest : List Char) (hm : ¬c = '-') (hp : ¬c = '+') :
    stripSign (c :: rest) = c :: rest := by
  simp [stripSign, hm, hp]

theorem fromChars_isSome (cs : List Char) :
    (fromChars cs).isSome = true ↔ litChars cs = true := by
  cases cs with
  | nil => simp [fromChars, litChars, stripSign]
  | cons c rest =>
    by_cases hm : c = '-'
    · subst hm
      rw [show fromChars ('-' :: rest)
          = (decScan rest 0 none false).map (fun p => ⟨-(p.1 : Int), p.2⟩) from by
        simp [fromChars]]
      rw [Option.isSome_map', decScan_isSome, litChars_iff, stripSign_minus]
      constructor
      · rintro ⟨h1, h2, h3⟩
        rcases h3 with h | h
        · cases h
        · exact ⟨h, h1, by simpa using h2⟩
      · rintro ⟨h1, h2, h3⟩
        exact ⟨h2, by simpa using h3, Or.inr h1⟩
    · by_cases hp : c = '+'
      · subst hp
        rw [show fromChars ('+' :: rest)
            = (decScan rest 0 none false).map (fun p => ⟨(p.1 : Int), p.2⟩) from by
          simp [fromChars]]
        rw [Option.isSome_map', decScan_isSome, litChars_iff, stripSign_plus]
        constructor
        · rintro ⟨h1, h2, h3⟩
          rcases h3 with h | h
          · cases h
          · exact ⟨h, h1, by simpa using h2⟩
        · rintro ⟨h1, h2, h3⟩
          exact ⟨h2, by simpa using h3, Or.inr h1⟩
      · rw [show fromChars (c :: rest)
            = (decScan (c :: rest) 0 none false).map (fun p => ⟨(p.1 : Int), p.2⟩) from by
          simp [fromChars, hm, hp]]
        rw [Option.isSome_map', decScan_isSome, litChars_iff, stripSign_other c rest hm hp]
        constructor
        · rintro ⟨h1, h2, h3⟩
          rcases h3 with h | h
          · cases h
          · exact ⟨h, h1, by simpa using h2⟩
        · rintro ⟨h1, h2, h3⟩
          exact ⟨h2, by simpa using h3, Or.inr h1⟩

theorem fromChars_none_iff (cs : List Char) :
    fromChars cs = none ↔ litChars cs = false := by
  constructor
  · intro h
    cases hb : litChars cs
    · rfl
    · exfalso
      have := (fromChars_isSome cs).mpr hb
      rw [h] at this
      cases this
  · intro h
    cases hf : fromChars cs
    · rfl
    · exfalso
      have : litChars cs = true := (fromChars_isSome cs).mp (by rw [hf]; rfl)
      rw [h] at this
      cases this

theorem decScan_full (cs2 : List Char) (m2 f2 : Nat)
    (h : decScan cs2 0 none false = some (m2, f2)) :
    m2 = digitsVal (cs2.takeWhile (· ≠ '.') ++ (cs2.dropWhile (· ≠ '.')).drop 1) ∧
    f2 = ((cs2.dropWhile (· ≠ '.')).drop 1).length := by
  have hs : (decScan cs2 0 none false).isSome = true := by rw [h]; rfl
  obtain ⟨hall, hcnt, _⟩ := (decScan_isSome cs2 0 none false).mp hs
  have hcnt2 : cs2.count '.' ≤ 1 := by simpa using hcnt
  obtain ⟨e1, e2⟩ := filter_digits_decomp cs2 hall hcnt2
  have hfe : ((cs2.dropWhile (· ≠ '.')).drop 1).filter (·.isDigit)
      = (cs2.dropWhile (· ≠ '.')).drop 1 :=
    List.filter_eq_self.mpr (fun a ha => List.all_eq_true.mp e2 a ha)
  constructor
  · have hm := decScan_mantissa cs2 0 none false m2 f2 h
    rw [hm, e1]
    rfl
  · have hf := decScan_scale cs2 0 none false m2 f2 h
    simp only at hf
    rw [hf, hfe]

theorem fromChars_spec (cs : List Char) (d : Decimal)
    (h : fromChars cs = some d) :
    d.scale = (((stripSign cs).dropWhile (· ≠ '.')).drop 1).length ∧
    d.val = (if cs.head? = some '-' then (-1 : ℚ) else 1) *
      (digitsVal ((stripSign cs).takeWhile (· ≠ '.')
        ++ ((stripSign cs).dropWhile (· ≠ '.')).drop 1) : ℚ) /
      (10 : ℚ) ^ (((stripSign cs).dropWhile (· ≠ '.')).drop 1).length := by
  cases cs with
  | nil => simp [fromChars] at h
  | cons c rest =>
    by_cases hm : c = '-'
    · subst hm
      rw [show fromChars ('-' :: rest)
          = (decScan rest 0 none false).map (fun p => ⟨-(p.1 : Int), p.2⟩) from by
        simp [fromChars]] at h
      obtain ⟨p, hp, hd⟩ := Option.map_eq_some'.mp h
      obtain ⟨hm2, hf2⟩ := decScan_full rest p.1 p.2 (by rw [hp])
      subst hd
      rw [stripSign_minus]
      refine ⟨by simpa using hf2, ?_⟩
      simp only [Decimal.val, List.head?_cons, Option.some.injEq, if_pos rfl]
      rw [← hm2, ← hf2]
      push_cast
      ring
    · by_cases hpl : c = '+'
      · subst hpl
        rw [show fromChars ('+' :: rest)
            = (decScan rest 0 none false).map (fun p => ⟨(p.1 : Int), p.2⟩) from by
          simp [fromChars]] at h
        obtain ⟨p, hp, hd⟩ := Option.map_eq_some'.mp h
        obtain ⟨hm2, hf2⟩ := decScan_full rest p.1 p.2 (by rw [hp])
        subst hd
        rw [stripSign_plus]
        refine ⟨by simpa using hf2, ?_⟩
        rw [if_neg (show ¬(('+' :: rest).head? = some '-') from by simp)]
        simp only [Decimal.val]
        rw [← hm2, ← hf2]
        push_cast
        ring
      · rw [show fromChars (c :: rest)
            = (decScan (c :: rest) 0 none false).map (fun p => ⟨(p.1 : Int), p.2⟩) from by
          simp [fromChars, hm, hpl]] at h
        obtain ⟨p, hp, hd⟩ := Option.map_eq_some'.mp h
        obtain ⟨hm2, hf2⟩ := decScan_full (c :: rest) p.1 p.2 (by rw [hp])
        subst hd
        rw [stripSign_other c rest hm hpl]
        refine ⟨by simpa using hf2, ?_⟩
        rw [if_neg (show ¬((c :: rest).head? = some '-') from by simp [hm])]
        simp only [Decimal.val]
        rw [← hm2, ← hf2]
        push_cast
        ring

/-- C7: `Amount::parse` is absent exactly on the empty string or a
non-literal (per the spec's grammar: optional sign, digits, at most one
`.`, no grouping separators); on success the stored quantity carries the
given commodity index and reproduces the literal's numeric value exactly,
at the literal's own scale (number of fraction digits), with no rounding. -/
theorem c7_amount_parse_exact :
    (∀ (s : String) (ci : Option Nat),
        Amount.parse s ci = none ↔ (s = "" ∨ isExactDecimalLit s = false)) ∧
    (∀ (s : String) (ci : Option Nat) (a : Amount), Amount.parse s ci = some a →
        a.commodity_index = ci ∧
        a.quantity.scale = (fracDigits s).length ∧
        a.quantity.val = litVal s) := by
  constructor
  · intro s ci
    unfold Amount.parse
    by_cases he : s.isEmpty = true
    · rw [if_pos he]
      simp only [true_iff]
      exact Or.inl ((String.isEmpty_iff s).mp he)
    · rw [if_neg he]
      have hne : ¬s = "" := fun h => he ((String.isEmpty_iff s).mpr h)
      cases hf : Decimal.from_str_exact s with
      | none =>
        exact ⟨fun _ => Or.inr ((fromChars_none_iff s.toList).mp hf), fun _ => rfl⟩
      | some q =>
        constructor
        · intro h
          exact Option.noConfusion h
        · rintro (h | h)
          · exact absurd h hne
          · have h2 : Decimal.from_str_exact s = none :=
              (fromChars_none_iff s.toList).mpr h
            rw [hf] at h2
            cases h2
  · intro s ci a h
    unfold Amount.parse at h
    by_cases he : s.isEmpty = true
    · rw [if_pos he] at h
      cases h
    · rw [if_neg he] at h
      cases hf : Decimal.from_str_exact s with
      | none =>
        rw [hf] at h
        exact Option.noConfusion h
      | some q =>
        rw [hf] at h
        replace h : some (⟨q, ci⟩ : Amount) = some a := h
        have ha : a = ⟨q, ci⟩ := (Option.some.injEq _ _ ▸ h).symm
        subst ha
        obtain ⟨hs, hv⟩ := fromChars_spec s.toList q hf
        exact ⟨rfl, hs, hv⟩

/-- C7 witness: the spec's own example literal `-1000000.00`, stored as
mantissa -100000000 at scale 2 — full precision, not rescaled. -/
theorem c7_amount_parse_exact_witness :
    (⟨⟨-100000000, 2⟩, none⟩ : Amount).commodity_index = none ∧
    (⟨⟨-100000000, 2⟩, none⟩ : Amount).quantity.scale = (fracDigits "-1000000.00").length ∧
    (⟨⟨-100000000, 2⟩, none⟩ : Amount).quantity.val = litVal "-1000000.00" :=
  c7_amount_parse_exact.2 "-1000000.00" none ⟨⟨-100000000, 2⟩, none⟩ (by decide)
